import Mathlib

/-!
Verification of the OpenQAOA repository slice consisting of
`openqaoa/backends/qpus/qaoa_braket_qpu.py` and
`openqaoa/problems/binpacking.py`, via a shallow embedding of the
relevant methods into Lean.

External vendor SDK objects (Braket circuits, docplex models, scipy,
numpy randomness, the QAOA workflow and the `FromDocplex2IsingModel`
converter, which are not part of the analysed sources) are modelled
abstractly: either as opaque tokens, as records of the arguments the
code passes to them, or as oracle function parameters.
-/

namespace OpenQAOA

/-! # AWS Braket backend: `QAOAAWSQPUBackend` (`qaoa_braket_qpu.py`) -/

/-- Measurement counts, `job.result().measurement_counts`: a dictionary
mapping measured bitstrings to their number of counts. -/
abbrev Counts := List (String × Nat)

/-- Outcome of one attempt at `job.result().measurement_counts` for a
submitted job: either the counts, or an `AttributeError` raised while
accessing the result (task incomplete / connection timed out). -/
inductive JobAttempt where
  | ok (counts : Counts)
  | attributeError
deriving DecidableEq

/-- Observable outcome of `QAOAAWSQPUBackend.get_counts`. -/
inductive GetCountsResult where
  /-- the method returns `retval` after executing
      `self.measurement_outcomes = counts`; both fields record the same
      local `counts`. -/
  | returns (retval : Counts) (measurement_outcomes : Counts)
  /-- `raise ConnectionError(...)` -/
  | connectionError
  /-- Python `NameError`/`UnboundLocalError`: the trailing
      `self.measurement_outcomes = counts` runs with the local `counts`
      never having been assigned. -/
  | nameError
  /-- fuel exhausted (never happens for this loop, see
      `get_counts_loop_fuel`-style arguments below) -/
  | diverges
deriving DecidableEq

/-- `max_job_retries = 5` in `get_counts`. -/
def max_job_retries : Nat := 5

/-- The mutable locals of the `while job_state == False:` loop in
`get_counts`.  `counts` is `none` while the Python local is unbound;
`next_job` counts how many jobs have been submitted so far and indexes
into the attempt oracle. -/
structure GCState where
  job_state : Bool
  no_of_job_retries : Nat
  counts : Option Counts
  next_job : Nat

/-- Code executed after the `while` loop exits (normally or via
`break`): `self.measurement_outcomes = counts; return counts`.
Reading the unbound local raises `NameError`. -/
def get_counts_finish (st : GCState) : GetCountsResult :=
  match st.counts with
  | some c => .returns c c
  | none => .nameError

/-- The `while job_state == False:` loop of `get_counts`, fuelled.
`attempts k` is the outcome of accessing the result of the `k`-th
submitted job (`self.backend_qpu.run(...)` followed by
`job.result().measurement_counts`).

Faithful control flow of the source: on success the local `counts` is
bound and `job_state` set to `True`, then the
`no_of_job_retries >= max_job_retries` check runs, then the loop
condition is re-tested.  On `AttributeError` the counter is incremented
and `break` exits the loop immediately — before the retry-limit check
is ever reached. -/
def get_counts_loop (attempts : Nat → JobAttempt) : Nat → GCState → GetCountsResult
  | 0, _ => .diverges
  | fuel + 1, st =>
    if st.job_state = false then
      match attempts st.next_job with
      | .ok c =>
        let st' : GCState :=
          { st with counts := some c, job_state := true, next_job := st.next_job + 1 }
        if st'.no_of_job_retries ≥ max_job_retries then
          .connectionError
        else
          get_counts_loop attempts fuel st'
      | .attributeError =>
        get_counts_finish
          { st with no_of_job_retries := st.no_of_job_retries + 1,
                    next_job := st.next_job + 1 }
    else
      get_counts_finish st

/-- `QAOAAWSQPUBackend.get_counts`: initial state
`job_state = False`, `no_of_job_retries = 0`, local `counts` unbound.
The fuel `max_job_retries + 2` is more than enough: each iteration
either breaks or sets `job_state`. -/
def get_counts (attempts : Nat → JobAttempt) : GetCountsResult :=
  get_counts_loop attempts (max_job_retries + 2) ⟨false, 0, none, 0⟩

/-! ## `parametric_qaoa_circuit` (C6) -/

/-- An abstract parametrized gate of `self.abstract_circuit`:
its `pauli_label` (stringified to name the `FreeParameter`) and the
token list of concrete Braket gate applications returned by
`decomposition('standard')`. -/
structure AbstractGate where
  pauli_label : String
  decomposition : List Nat
deriving DecidableEq

/-- One element of the Braket `Circuit` assembled by
`parametric_qaoa_circuit`, in the order the `+=` operations append
them. -/
inductive CircuitElem where
  /-- an instruction contributed by `self.prepend_state` -/
  | prepended (tok : Nat)
  /-- `H.h(each_qubit)` -/
  | hGate (q : Nat)
  /-- one concrete gate of an abstract gate's standard decomposition,
      applied via `apply_braket_gate`; carries the name of the
      `FreeParameter` that was set as the abstract gate's
      `rotation_angle`. -/
  | gateApp (tok : Nat) (rotation_angle : String)
  /-- an instruction contributed by `self.append_state` -/
  | appended (tok : Nat)
  /-- the final `Probability.probability()` result type -/
  | probability
deriving DecidableEq

/-- Return value of `parametric_qaoa_circuit` together with the
`self.braket_parameter_list` attribute it (re)builds: the list of
`FreeParameter` names in order of creation. -/
structure ParametricCircuitResult where
  circuit : List CircuitElem
  braket_parameter_list : List String
deriving DecidableEq

/-- `QAOAAWSQPUBackend.parametric_qaoa_circuit`.  A pure circuit
constructor: optional `prepend_state`, Hadamards on `qubit_layout` when
`init_hadamard`, then per abstract gate a fresh `FreeParameter`
(appended to `braket_parameter_list`) and the gate's standard
decomposition, optional `append_state`, and a `Probability` result
type.  The function never runs the circuit. -/
def parametric_qaoa_circuit (prepend_state append_state : Option (List Nat))
    (init_hadamard : Bool) (qubit_layout : List Nat)
    (abstract_circuit : List AbstractGate) : ParametricCircuitResult :=
  let c0 : List CircuitElem :=
    match prepend_state with
    | some p => p.map CircuitElem.prepended
    | none => []
  let c1 : List CircuitElem :=
    if init_hadamard then c0 ++ qubit_layout.map CircuitElem.hGate else c0
  -- per gate: `angle_param = FreeParameter(str(each_gate.pauli_label))`;
  -- `each_gate.rotation_angle = angle_param`; the inner loop then
  -- appends each decomposition gate one by one.
  let built := abstract_circuit.foldl
    (fun acc g =>
      (acc.1 ++ g.decomposition.map (fun t => CircuitElem.gateApp t g.pauli_label),
       acc.2 ++ [g.pauli_label]))
    (c1, [])
  let c2 : List CircuitElem :=
    match append_state with
    | some a => built.1 ++ a.map CircuitElem.appended
    | none => built.1
  ⟨c2 ++ [CircuitElem.probability], built.2⟩

/-! # Bin packing: `BinPacking` (`binpacking.py`) -/

/-- The name of a docplex binary decision variable of the bin-packing
model: `y_{j}` (bin `j` used) or `x_{i}_{j}` (item `i` in bin `j`).
The Python code uses the f-strings `f"y_{j}"` / `f"x_{i}_{j}"`, which
are in bijection with these constructors. -/
inductive VKey where
  | y (j : Nat)
  | x (i j : Nat)
deriving DecidableEq, Repr

/-- The Python exceptions the embedded `BinPacking` code can raise. -/
inductive PyError where
  /-- `ValueError` (explicit `raise`, or `int(float('nan'))`) -/
  | valueError
  /-- `OverflowError` (`int(float('inf'))`) -/
  | overflowError
  /-- `TypeError` (indexing a `str` with a `list`) -/
  | typeError
deriving DecidableEq, Repr

/-- A Python `dict` keyed by variable names, as an association list in
insertion order. -/
abbrev PyDict := List (VKey × Option Nat)

/-- Python `d[k] = v`: updates the entry in place when the key is
present, otherwise appends it (dicts preserve insertion order). -/
def pySet {α β : Type} [DecidableEq α] (d : List (α × β)) (k : α) (v : β) :
    List (α × β) :=
  if d.any (fun p => p.1 = k) then
    d.map (fun p => if p.1 = k then (k, v) else p)
  else
    d ++ [(k, v)]

/-- The mathematical ceiling `⌈a / b⌉` of an integer quotient with
`b ≠ 0`, computed as `-⌊-a / b⌋` via floor division. -/
def ceil_div (a b : Int) : Int := -((-a).fdiv b)

/-- `int(np.ceil(np.sum(self.weights) / self.weight_capacity))`, the
`min_bins` computation of `solution_dict`.

numpy semantics for a zero divisor: integer-array division by `0`
yields a float `inf` (positive sum), `-inf` (negative sum) or `nan`
(zero sum) under a mere `RuntimeWarning`; the subsequent `int(...)`
then raises `OverflowError` (for `±inf`) or `ValueError` (for `nan`).
For a nonzero divisor the result is the exact mathematical ceiling of
the quotient, computed here as `-((-a).fdiv b)`. -/
def min_bins_calc (weights : List Int) (weight_capacity : Int) :
    Except PyError Int :=
  if weight_capacity = 0 then
    if weights.sum = 0 then .error .valueError
    else .error .overflowError
  else
    .ok (ceil_div weights.sum weight_capacity)

/-- Result of `BinPacking.solution_dict`: the returned dictionary and
the value of the `self.min_bins` attribute afterwards (`solution_dict`
assigns `self.min_bins` only on the `simplifications` path;
`prev_min_bins` is its previous value, `none` when unset). -/
structure SolutionDictResult where
  dict : PyDict
  min_bins : Option Int
deriving DecidableEq, Repr

/-- `BinPacking.solution_dict`.  Builds the ordered dictionary
`{y_0: None, ..., y_{n_bins-1}: None, x_0_0: None, ..., x_{n_items-1}_{n_bins-1}: None}`
and, when `simplifications` is set, computes `self.min_bins` and fixes
`y_j = 1` for `j < min_bins`, `x_0_0 = 1` and `x_0_j = 0` for
`j = 1..n_bins-1`. -/
def solution_dict (weights : List Int) (weight_capacity : Int)
    (n_items n_bins : Nat) (simplifications : Bool)
    (prev_min_bins : Option Int) : Except PyError SolutionDictResult :=
  let d : PyDict := (List.range n_bins).map (fun j => (VKey.y j, none))
  let d : PyDict := (List.range n_items).foldl
    (fun d i => (List.range n_bins).foldl (fun d j => pySet d (VKey.x i j) none) d) d
  if simplifications then
    match min_bins_calc weights weight_capacity with
    | .error e => .error e
    | .ok mb =>
      let d := (List.range n_bins).foldl
        (fun d (j : Nat) => if (j : Int) < mb then pySet d (VKey.y j) (some 1) else d) d
      let d := pySet d (VKey.x 0 0) (some 1)
      let d := (List.range' 1 (n_bins - 1)).foldl
        (fun d j => pySet d (VKey.x 0 j) (some 0)) d
      .ok ⟨d, some mb⟩
  else
    .ok ⟨d, prev_min_bins⟩

/-- The docplex `Model` handle, reduced to its observable bookkeeping:
the binary decision variables in creation order
(`mdl.iter_binary_vars()`).  `number_of_binary_variables` is
`binary_vars.length`.  The objective and the constraints fed to the
external CPLEX solver are outside the analysed sources. -/
structure CplexModel where
  binary_vars : List VKey
deriving DecidableEq, Repr

/-- The binary variables of the model built by `docplex_model` from the
solution dictionary `d`: one `mdl.binary_var(var)` per key whose value
is `None`, in dictionary order. -/
def binary_vars_of (d : PyDict) : List VKey :=
  (d.filter (fun p => p.2 = none)).map (fun p => p.1)

/-- `self.vars_pos`: name ↦ index among the binary variables in
creation order (`{var.name: n for n, var in enumerate(mdl.iter_binary_vars())}`).
Only ever consulted on names of binary variables, which are members of
`binary_vars_of d`. -/
def vars_pos (d : PyDict) (k : VKey) : Nat :=
  (binary_vars_of d).indexOf k

/-- One recorded constraint of `self.eq_constraints` /
`self.ineq_constraints`: `[positions, rhs-list]`, a pair of a list of
variable positions and a singleton list holding the right-hand side
(an integer constant, or — in the unsimplified inequality case — the
position of the `y_j` variable). -/
abbrev RecordedConstraint := List Nat × List Int

/-- What `BinPacking.docplex_model` computes: the updated
`self.eq_constraints` and `self.ineq_constraints` dictionaries (keyed
by item index `i` resp. bin index `j`, standing for the f-string keys
`f"eq_{i}"` / `f"ineq_{j}"`, in insertion order) and the model handle.
`prev_eq`/`prev_ineq` are the previous dictionary contents: the method
updates the dictionaries initialised in `__init__` without clearing
them. -/
structure DocplexBuildResult where
  eq_constraints : List (Nat × RecordedConstraint)
  ineq_constraints : List (Nat × RecordedConstraint)
  model : CplexModel
deriving DecidableEq, Repr

/-- `BinPacking.docplex_model`.  `d` is `self.solution` (the method is
only reached after `solution_dict` has set it).  `min_bins` is
`self.min_bins`; the `j < self.min_bins` test is only evaluated when
`simplifications` is true, in which case `solution_dict` has set the
attribute, so the `getD 0` default is never semantically relevant.
`weights.headI` stands for `self.weights[0]`, read only on the
simplified `j = 0` branch, where the constructor guarantees a
non-empty weight list. -/
def docplex_model (d : PyDict) (weights : List Int) (weight_capacity : Int)
    (n_items n_bins : Nat) (simplifications : Bool) (min_bins : Option Int)
    (prev_eq prev_ineq : List (Nat × RecordedConstraint)) : DocplexBuildResult :=
  let pos := vars_pos d
  let list_items : List Nat :=
    if simplifications then List.range' 1 (n_items - 1) else List.range n_items
  let eqc := list_items.foldl
    (fun acc i =>
      pySet acc i ((List.range n_bins).map (fun j => pos (VKey.x i j)), [(1 : Int)]))
    prev_eq
  let ineqc := (List.range n_bins).foldl
    (fun acc (j : Nat) =>
      let ps := list_items.map (fun i => pos (VKey.x i j))
      if simplifications ∧ (j : Int) < min_bins.getD 0 then
        if j = 0 then pySet acc j (ps, [weight_capacity - weights.headI])
        else pySet acc j (ps, [weight_capacity])
      else
        pySet acc j (ps, [(pos (VKey.y j) : Int)]))
    prev_ineq
  ⟨eqc, ineqc, ⟨binary_vars_of d⟩⟩

/-- The attributes of a `BinPacking` object.  `solution`,
`cplex_model`, `n_vars` and `min_bins` are `none` while the Python
attribute does not exist. -/
structure BinPackingState where
  weights : List Int
  weight_capacity : Int
  penalty : List ℚ
  n_items : Nat
  method : String
  simplifications : Bool
  eq_constraints : List (Nat × RecordedConstraint)
  ineq_constraints : List (Nat × RecordedConstraint)
  n_bins : Nat
  min_bins : Option Int
  solution : Option PyDict
  cplex_model : Option CplexModel
  n_vars : Option Nat
deriving DecidableEq, Repr

/-- The object state after the unconditional assignments of
`BinPacking.__init__` (everything before the `if len(weights) > 0`
block). -/
def init_state (weights : List Int) (weight_capacity : Int) (penalty : List ℚ)
    (n_bins : Option Nat) (simplifications : Bool) (method : String) :
    BinPackingState where
  weights := weights
  weight_capacity := weight_capacity
  penalty := penalty
  n_items := weights.length
  method := method
  simplifications := simplifications
  eq_constraints := []
  ineq_constraints := []
  n_bins := n_bins.getD weights.length
  min_bins := none
  solution := none
  cplex_model := none
  n_vars := none

/-- Runs `self.solution = self.solution_dict()`,
`self.cplex_model = self.docplex_model()` and
`self.n_vars = self.cplex_model.number_of_binary_variables` on a
state (the tail of `__init__` and of `random_instance`). -/
def build_instance (st : BinPackingState) : Except PyError BinPackingState :=
  match solution_dict st.weights st.weight_capacity st.n_items st.n_bins
      st.simplifications st.min_bins with
  | .error e => .error e
  | .ok r =>
    let st := { st with solution := some r.dict, min_bins := r.min_bins }
    let b := docplex_model r.dict st.weights st.weight_capacity st.n_items st.n_bins
      st.simplifications st.min_bins st.eq_constraints st.ineq_constraints
    .ok { st with eq_constraints := b.eq_constraints,
                  ineq_constraints := b.ineq_constraints,
                  cplex_model := some b.model,
                  n_vars := some b.model.binary_vars.length }

/-- `BinPacking.__init__`.  With an empty `weights` list the
`solution`/`cplex_model`/`n_vars` attributes are never created; with a
non-empty list the construction runs `solution_dict` and
`docplex_model` (and an exception there propagates, in which case no
object is produced). -/
def BinPacking_init (weights : List Int) (weight_capacity : Int)
    (penalty : List ℚ) (n_bins : Option Nat) (simplifications : Bool)
    (method : String) : Except PyError BinPackingState :=
  let st := init_state weights weight_capacity penalty n_bins simplifications method
  if weights.length > 0 then build_instance st else .ok st

/-- `BinPacking.random_instance`.  `randint min ub n seed` models
`np.random.seed(seed); np.random.randint(min, ub, n)` (an external
PRNG), returning the sampled weights.  An exception leaves the object
in the partially-updated state recorded in the `error` payload:
`weight_capacity`, `n_items` and `n_bins` are overwritten before the
`min_weight >= max_weight` check runs. -/
def random_instance (st : BinPackingState)
    (randint : Int → Int → Nat → Nat → List Int) (n_items : Nat)
    (min_weight max_weight : Int) (weight_capacity : Int)
    (simplification : Bool) (seed : Nat) :
    Except (PyError × BinPackingState) BinPackingState :=
  let st := { st with weight_capacity := weight_capacity, n_items := n_items,
                      n_bins := n_items }
  if min_weight ≥ max_weight then .error (.valueError, st)
  else
    let st := { st with weights := randint min_weight max_weight n_items seed,
                        simplifications := simplification }
    match build_instance st with
    | .error e => .error (e, st)
    | .ok st' => .ok st'

/-! ## `constraints_not_fulfilled` -/

/-- `int(i)` for position `p` of the measured bitstring, as the integer
`0`/`1`.  All positions this is applied to are recorded variable
positions, which are provably below the bitstring length in the states
the claims quantify over, so the `getD` default is never taken where
Python would raise `IndexError`. -/
def bitAt (sol : List Bool) (p : Nat) : Int :=
  if sol.getD p false then 1 else 0

/-- The first loop of `constraints_not_fulfilled`:
`vec = np.zeros(n_vars); vec[constraint[0]] = 1;
lh = np.sum(vec * np.array([int(i) for i in solution]))`, counting the
constraints with `lh != constraint[1][0]`.  Fancy-index assignment of
the scalar `1` sets exactly the listed positions, i.e. the vector is
the indicator of membership in `constraint[0]`. -/
def eqViolationCount (eqs : List RecordedConstraint) (n_vars : Nat)
    (sol : List Bool) : Nat :=
  eqs.foldl
    (fun check c =>
      let vec : Nat → Int := fun q => if q ∈ c.1 then 1 else 0
      let lh := ((List.range n_vars).map (fun q => vec q * bitAt sol q)).sum
      if lh ≠ c.2.headI then check + 1 else check)
    0

/-- `vec = np.zeros(n_vars); vec[ps] = ws`: fancy-index assignment of a
vector, position by position (later duplicates would win, but the
recorded position lists are duplicate-free). -/
def npAssignVec (ps : List Nat) (ws : List Int) : Nat → Int :=
  (ps.zip ws).foldl (fun v pw => Function.update v pw.1 pw.2) (fun _ => 0)

/-- `BinPacking.constraints_not_fulfilled(solution)`.  Counts violated
recorded equality constraints, then walks `enumerate(self.ineq_constraints.values())`.
On the `self.simplifications` branch the right-hand side is the
recorded constant for `ii < self.min_bins` and
`self.weight_capacity * int(solution[constraint[1][0]])` otherwise; on
the unsimplified branch the source evaluates
`int(solution[constraint[1]])` — indexing the solution string with the
*list* `constraint[1]` — which raises `TypeError`.
`self.min_bins` is only read when `simplifications` is set (where it
exists), and `self.n_vars` exists whenever the recorded constraint
dictionaries are non-empty, so the `getD` defaults are never
semantically relevant. -/
def constraints_not_fulfilled (st : BinPackingState) (sol : List Bool) :
    Except PyError Nat :=
  let n_vars := st.n_vars.getD 0
  let check := eqViolationCount (st.eq_constraints.map Prod.snd) n_vars sol
  (st.ineq_constraints.map Prod.snd).enum.foldlM
    (fun check iic =>
      let ii := iic.1
      let c := iic.2
      let ws := if st.simplifications then st.weights.tail else st.weights
      let vec := npAssignVec c.1 ws
      let lh := ((List.range n_vars).map (fun q => vec q * bitAt sol q)).sum
      match (if st.simplifications then
               if (ii : Int) < st.min_bins.getD 0 then Except.ok c.2.headI
               else Except.ok (st.weight_capacity * bitAt sol c.2.headI.toNat)
             else Except.error PyError.typeError : Except PyError Int) with
      | .error e => .error e
      | .ok rhs => .ok (if rhs < lh then check + 1 else check))
    check

/-! ## `get_qubo_problem` and the docplex → Ising converter (C2) -/

/-- The `multipliers` argument passed to the converter: omitted
(converter default), the penalty list, or the scalar `penalty[0]`. -/
inductive Multipliers where
  | default
  | list (l : List ℚ)
  | scalar (q : ℚ)
deriving DecidableEq, Repr

/-- The `strength_ineq` argument passed to the converter: omitted
(converter default) or the list `penalty[1:]`. -/
inductive StrengthIneq where
  | default
  | list (l : List ℚ)
deriving DecidableEq, Repr

/-- Modelled from the spec: `FromDocplex2IsingModel`
(`openqaoa/problems/converters.py`, not among the analysed sources) is
the "constrained-optimization-to-QUBO conversion with configurable
penalty methods".  It is modelled as a record of the docplex model and
of the penalty configuration the call passes, with `unbalanced_const`
defaulting to `False` and `multipliers`/`strength_ineq` defaulting
when not supplied. -/
structure FromDocplex2IsingModel where
  model : CplexModel
  multipliers : Multipliers
  unbalanced_const : Bool
  strength_ineq : StrengthIneq
deriving DecidableEq, Repr

/-- Modelled from the spec: the `.ising_model` attribute of a
`FromDocplex2IsingModel` — the Ising-model encoding determined by the
docplex model and the chosen penalty configuration. -/
structure IsingEncoding where
  config : FromDocplex2IsingModel
deriving DecidableEq, Repr

/-- Modelled from the spec: reading `.ising_model` off the converter. -/
def ising_model (c : FromDocplex2IsingModel) : IsingEncoding := ⟨c⟩

/-- `BinPacking.get_qubo_problem`.  Branches on `len(self.penalty) > 0`
and `self.method`; for a method other than `"slack"`/`"unbalanced"`
the local `qubo` is never bound and the final `return qubo.ising_model`
raises `NameError`, modelled as `none`.  `self.cplex_model` exists in
every state the claim quantifies over (docplex model built); the `getD`
default stands for the attribute read. -/
def get_qubo_problem (st : BinPackingState) : Option IsingEncoding :=
  let mdl := st.cplex_model.getD ⟨[]⟩
  match st.penalty with
  | [] =>
    if st.method = "slack" then
      some (ising_model ⟨mdl, .default, false, .default⟩)
    else if st.method = "unbalanced" then
      some (ising_model ⟨mdl, .default, true, .default⟩)
    else none
  | p :: rest =>
    if st.method = "slack" then
      some (ising_model ⟨mdl, .list (p :: rest), false, .default⟩)
    else if st.method = "unbalanced" then
      some (ising_model ⟨mdl, .scalar p, true, .list rest⟩)
    else none

/-! ## `find_penalty_terms` (C7) -/

/-- Modelled from the spec: the dictionary returned by the
`callback=True` evaluation of `get_penalty` (QAOA results of the first
tuning problem), abstracted to an opaque token. -/
abbrev CallbackResult := Nat

/-- Oracles for the external machinery `find_penalty_terms` drives:
numpy's seeded `randint`, the CPLEX `classical_solution(string=True)`
solver, the QAOA-pipeline value of `get_penalty(...)` (`objective`)
and its `callback=True` variant (`callback`), and
`scipy.optimize.minimize` (given the objective, `x0` and the `method`
string, returning the minimizer `sol_ineq.x`). -/
structure FPTOracles where
  randint : Int → Int → Nat → Nat → List Int
  classical_solution : BinPackingState → String
  objective : List ℚ → List BinPackingState → List String → ℚ
  callback : List ℚ → List BinPackingState → List String → CallbackResult
  minimize : (List ℚ → ℚ) → List ℚ → String → List ℚ

/-- The `min_weight` actually used by `find_penalty_terms`:
`min(self.weights)`, decremented when it equals `max(self.weights) > 1`.
The source's inner `if max_weight > 1` repeats the outer conjunct, so
its `raise ValueError` branch is dead code. -/
def adjusted_min_weight (w : List Int) : Int :=
  let m := w.min?.getD 0
  let M := w.max?.getD 0
  if m = M ∧ M > 1 then m - 1 else m

/-- The tuning-model loop of `find_penalty_terms`:
`mdls[n_mdl] = BinPacking(method=self.method)` followed by
`mdls[n_mdl].random_instance(n_items, min_weight, max_weight,
self.weight_capacity, seed=n_mdl)` for `n_mdl in range(n_mdls)`. -/
def build_models (st : BinPackingState) (O : FPTOracles)
    (n_items n_mdls : Nat) (min_w max_w : Int) :
    Except (PyError × BinPackingState) (List BinPackingState) :=
  (List.range n_mdls).mapM (fun seed =>
    random_instance (init_state [] 0 [] none true st.method) O.randint n_items
      min_w max_w st.weight_capacity true seed)

/-- `BinPacking.find_penalty_terms`.  Returns the post state (with
`self.penalty` overwritten by the minimizer) together with the returned
pair `(x, get_penalty(x, mdls, sol_str, callback=True))`.
`min(...)`/`max(...)` of an empty weight list raise `ValueError`.  The
classical solutions are collected alongside the model loop in the
source; collecting them afterwards is equivalent since the oracle is a
function of the built model. -/
def find_penalty_terms (st : BinPackingState) (O : FPTOracles)
    (penalty0 : List ℚ) (n_items n_mdls : Nat) :
    Except (PyError × BinPackingState)
      (BinPackingState × List ℚ × CallbackResult) :=
  if st.weights = [] then .error (.valueError, st)
  else
    let min_w := adjusted_min_weight st.weights
    let max_w := st.weights.max?.getD 0
    match build_models st O n_items n_mdls min_w max_w with
    | .error e => .error e
    | .ok mdls =>
      let sol_str := mdls.map O.classical_solution
      let x := O.minimize (fun p => O.objective p mdls sol_str) penalty0
        "Nelder-Mead"
      .ok ({ st with penalty := x }, x, O.callback x mdls sol_str)

/-! # Association-list (Python dict) machinery -/

section DictLemmas

variable {α β : Type} [DecidableEq α]

/-- Reading a key's binding off an association list (first match). -/
def pyGet : List (α × β) → α → Option β
  | [], _ => none
  | (a, b) :: d, k => if a = k then some b else pyGet d k

theorem pyGet_nil (k : α) : pyGet ([] : List (α × β)) k = none := rfl

theorem pyGet_cons (a : α) (b : β) (d : List (α × β)) (k : α) :
    pyGet ((a, b) :: d) k = if a = k then some b else pyGet d k := rfl

theorem any_key_iff (d : List (α × β)) (k : α) :
    (d.any (fun p => p.1 = k)) = true ↔ k ∈ d.map Prod.fst := by
  simp only [List.any_eq_true, decide_eq_true_eq, List.mem_map]

theorem pySet_of_not_mem {d : List (α × β)} {k : α} (v : β)
    (h : k ∉ d.map Prod.fst) : pySet d k v = d ++ [(k, v)] := by
  unfold pySet
  rw [if_neg (fun hc => h ((any_key_iff d k).1 hc))]

theorem pySet_of_mem {d : List (α × β)} {k : α} (v : β)
    (h : k ∈ d.map Prod.fst) :
    pySet d k v = d.map (fun p => if p.1 = k then (k, v) else p) := by
  unfold pySet
  rw [if_pos ((any_key_iff d k).2 h)]

theorem keys_pySet_of_mem {d : List (α × β)} {k : α} (v : β)
    (h : k ∈ d.map Prod.fst) :
    (pySet d k v).map Prod.fst = d.map Prod.fst := by
  rw [pySet_of_mem v h, List.map_map]
  refine List.map_congr_left ?_
  intro p _
  by_cases hpk : p.1 = k <;> simp [hpk]

theorem keys_pySet_of_not_mem {d : List (α × β)} {k : α} (v : β)
    (h : k ∉ d.map Prod.fst) :
    (pySet d k v).map Prod.fst = d.map Prod.fst ++ [k] := by
  rw [pySet_of_not_mem v h]
  simp

theorem pyGet_map_update_ne {d : List (α × β)} {k k' : α} (v : β)
    (h : k' ≠ k) :
    pyGet (d.map (fun p => if p.1 = k then (k, v) else p)) k' = pyGet d k' := by
  induction d with
  | nil => rfl
  | cons p d ih =>
    obtain ⟨a, b⟩ := p
    by_cases hpk : a = k
    · subst hpk
      rw [List.map_cons, if_pos (show (a, b).1 = a from rfl), pyGet_cons, pyGet_cons,
        if_neg (fun hh => h hh.symm), if_neg (fun hh => h hh.symm)]
      exact ih
    · simp only [List.map_cons, pyGet_cons, if_neg hpk]
      by_cases hak : a = k'
      · simp [hak]
      · simp only [if_neg hak]
        exact ih

theorem pyGet_map_update_self {d : List (α × β)} {k : α} (v : β)
    (h : k ∈ d.map Prod.fst) :
    pyGet (d.map (fun p => if p.1 = k then (k, v) else p)) k = some v := by
  induction d with
  | nil => simp at h
  | cons p d ih =>
    obtain ⟨a, b⟩ := p
    by_cases hpk : a = k
    · subst hpk
      simp [pyGet_cons]
    · simp only [List.map_cons, if_neg hpk, pyGet_cons, if_neg hpk]
      refine ih ?_
      simp only [List.map_cons, List.mem_cons] at h
      exact h.resolve_left (fun hh => hpk hh.symm)

theorem pyGet_eq_none_of_not_mem {d : List (α × β)} {k : α}
    (h : k ∉ d.map Prod.fst) : pyGet d k = none := by
  induction d with
  | nil => rfl
  | cons p d ih =>
    obtain ⟨a, b⟩ := p
    simp only [List.map_cons, List.mem_cons, not_or] at h
    rw [pyGet_cons, if_neg (fun hh => h.1 hh.symm)]
    exact ih h.2

theorem pyGet_append (d₁ d₂ : List (α × β)) (k : α) :
    pyGet (d₁ ++ d₂) k = (pyGet d₁ k).orElse (fun _ => pyGet d₂ k) := by
  induction d₁ with
  | nil => rfl
  | cons p d ih =>
    obtain ⟨a, b⟩ := p
    rw [List.cons_append, pyGet_cons, pyGet_cons]
    by_cases hak : a = k
    · simp [hak]
    · rw [if_neg hak, if_neg hak]
      exact ih

/-- Python `d[k] = v` leaves every other key's binding unchanged and
binds `k` to `v`. -/
theorem pyGet_pySet (d : List (α × β)) (k : α) (v : β) (k' : α) :
    pyGet (pySet d k v) k' = if k' = k then some v else pyGet d k' := by
  by_cases hmem : k ∈ d.map Prod.fst
  · rw [pySet_of_mem v hmem]
    by_cases hk : k' = k
    · subst hk
      rw [if_pos rfl, pyGet_map_update_self v hmem]
    · rw [if_neg hk, pyGet_map_update_ne v hk]
  · rw [pySet_of_not_mem v hmem, pyGet_append]
    by_cases hk : k' = k
    · subst hk
      rw [if_pos rfl, pyGet_eq_none_of_not_mem hmem]
      simp [pyGet_cons]
    · rw [if_neg hk]
      cases h1 : pyGet d k' with
      | none =>
        show pyGet [(k, v)] k' = none
        rw [pyGet_cons, if_neg (fun hh => hk hh.symm), pyGet_nil]
      | some w => rfl

/-- Two association lists with the same duplicate-free key sequence and
the same `pyGet` behaviour are equal. -/
theorem pydict_ext {d₁ d₂ : List (α × β)}
    (hk : d₁.map Prod.fst = d₂.map Prod.fst)
    (hnd : (d₁.map Prod.fst).Nodup)
    (hl : ∀ k, pyGet d₁ k = pyGet d₂ k) : d₁ = d₂ := by
  induction d₁ generalizing d₂ with
  | nil =>
    cases d₂ with
    | nil => rfl
    | cons q d₂ => simp at hk
  | cons p d₁ ih =>
    obtain ⟨a, b⟩ := p
    cases d₂ with
    | nil => simp at hk
    | cons q d₂ =>
      obtain ⟨a', b'⟩ := q
      simp only [List.map_cons, List.cons.injEq] at hk
      obtain ⟨hkey, htail⟩ := hk
      subst hkey
      have hval : b = b' := by
        have := hl a
        rw [pyGet_cons, if_pos rfl, pyGet_cons, if_pos rfl] at this
        exact Option.some.inj this
      subst hval
      simp only [List.map_cons, List.nodup_cons] at hnd
      refine congrArg (List.cons (a, b)) (ih htail hnd.2 ?_)
      intro k
      by_cases hkp : k = a
      · subst hkp
        rw [pyGet_eq_none_of_not_mem hnd.1,
          pyGet_eq_none_of_not_mem (htail ▸ hnd.1)]
      · have := hl k
        rw [pyGet_cons, if_neg (fun hh => hkp hh.symm), pyGet_cons,
          if_neg (fun hh => hkp hh.symm)] at this
        exact this

/-- Folding fresh insertions over duplicate-free keys appends the new
entries in order. -/
theorem foldl_pySet_fresh (ks : List α) (V : α → β) (d : List (α × β))
    (hnd : ks.Nodup) (hdisj : ∀ k ∈ ks, k ∉ d.map Prod.fst) :
    ks.foldl (fun d k => pySet d k (V k)) d = d ++ ks.map (fun k => (k, V k)) := by
  induction ks generalizing d with
  | nil => simp
  | cons k ks ih =>
    simp only [List.foldl_cons]
    rw [pySet_of_not_mem (V k) (hdisj k (List.mem_cons_self k ks))]
    rw [ih (d ++ [(k, V k)]) (List.nodup_cons.1 hnd).2]
    · simp
    · intro k' hk'
      simp only [List.map_append, List.mem_append, List.map_cons, List.map_nil,
        List.mem_singleton, not_or]
      refine ⟨hdisj k' (List.mem_cons_of_mem k hk'), ?_⟩
      intro hcon
      exact (List.nodup_cons.1 hnd).1 (hcon ▸ hk')

/-- Folding conditional in-place updates: `pyGet` afterwards returns
the written value exactly on the touched keys. -/
theorem pyGet_foldl_pySet_cond (P : Nat → Prop) [DecidablePred P]
    (K : Nat → α) (v : β) (js : List Nat) (d : List (α × β)) (k : α) :
    pyGet (js.foldl (fun d j => if P j then pySet d (K j) v else d) d) k
      = if ∃ j ∈ js, P j ∧ K j = k then some v else pyGet d k := by
  induction js generalizing d with
  | nil => simp
  | cons j js ih =>
    simp only [List.foldl_cons]
    rw [ih]
    by_cases hjs : ∃ j' ∈ js, P j' ∧ K j' = k
    · rw [if_pos hjs, if_pos]
      obtain ⟨j', hj', h⟩ := hjs
      exact ⟨j', List.mem_cons_of_mem j hj', h⟩
    · rw [if_neg hjs]
      by_cases hP : P j
      · rw [if_pos hP, pyGet_pySet]
        by_cases hkk : k = K j
        · rw [if_pos hkk, if_pos ⟨j, List.mem_cons_self j js, hP, hkk.symm⟩]
        · rw [if_neg hkk, if_neg]
          intro hc
          obtain ⟨j', hj', hPj', hKj'⟩ := hc
          rcases List.mem_cons.1 hj' with h | h
          · exact hkk (h ▸ hKj').symm
          · exact hjs ⟨j', h, hPj', hKj'⟩
      · rw [if_neg hP, if_neg]
        intro hc
        obtain ⟨j', hj', hPj', hKj'⟩ := hc
        rcases List.mem_cons.1 hj' with h | h
        · exact hP (h ▸ hPj')
        · exact hjs ⟨j', h, hPj', hKj'⟩

/-- Folding conditional in-place updates of keys that are all present
leaves the key sequence unchanged. -/
theorem keys_foldl_pySet_cond (P : Nat → Prop) [DecidablePred P]
    (K : Nat → α) (v : β) (js : List Nat) (d : List (α × β))
    (hmem : ∀ j ∈ js, P j → K j ∈ d.map Prod.fst) :
    (js.foldl (fun d j => if P j then pySet d (K j) v else d) d).map Prod.fst
      = d.map Prod.fst := by
  induction js generalizing d with
  | nil => rfl
  | cons j js ih =>
    simp only [List.foldl_cons]
    by_cases hP : P j
    · rw [if_pos hP]
      have hkeys := keys_pySet_of_mem v (hmem j (List.mem_cons_self j js) hP)
      rw [ih (pySet d (K j) v) (fun j' hj' hPj' => hkeys ▸
        hmem j' (List.mem_cons_of_mem j hj') hPj'), hkeys]
    · rw [if_neg hP]
      exact ih d (fun j' hj' hPj' => hmem j' (List.mem_cons_of_mem j hj') hPj')

end DictLemmas

/-! # Characterisation of `solution_dict` -/

theorem orElse_some {γ : Type} (a : γ) (f : Unit → Option γ) :
    (some a).orElse f = some a := rfl

theorem orElse_none {γ : Type} (f : Unit → Option γ) :
    (none : Option γ).orElse f = f () := rfl

/-- Unconditional variant of `pyGet_foldl_pySet_cond`. -/
theorem pyGet_foldl_pySet {α β : Type} [DecidableEq α] (K : Nat → α) (v : β)
    (js : List Nat) (d : List (α × β)) (k : α) :
    pyGet (js.foldl (fun d j => pySet d (K j) v) d) k
      = if ∃ j ∈ js, K j = k then some v else pyGet d k := by
  induction js generalizing d with
  | nil => simp
  | cons j js ih =>
    simp only [List.foldl_cons]
    rw [ih]
    by_cases hjs : ∃ j' ∈ js, K j' = k
    · rw [if_pos hjs, if_pos]
      obtain ⟨j', hj', h⟩ := hjs
      exact ⟨j', List.mem_cons_of_mem j hj', h⟩
    · rw [if_neg hjs, pyGet_pySet]
      by_cases hkk : k = K j
      · rw [if_pos hkk, if_pos ⟨j, List.mem_cons_self j js, hkk.symm⟩]
      · rw [if_neg hkk, if_neg]
        intro hc
        obtain ⟨j', hj', hKj'⟩ := hc
        rcases List.mem_cons.1 hj' with h | h
        · exact hkk (h ▸ hKj').symm
        · exact hjs ⟨j', h, hKj'⟩

/-- Unconditional variant of `keys_foldl_pySet_cond`. -/
theorem keys_foldl_pySet {α β : Type} [DecidableEq α] (K : Nat → α) (v : β)
    (js : List Nat) (d : List (α × β))
    (hmem : ∀ j ∈ js, K j ∈ d.map Prod.fst) :
    (js.foldl (fun d j => pySet d (K j) v) d).map Prod.fst = d.map Prod.fst := by
  induction js generalizing d with
  | nil => rfl
  | cons j js ih =>
    simp only [List.foldl_cons]
    have hkeys := keys_pySet_of_mem v (hmem j (List.mem_cons_self j js))
    rw [ih (pySet d (K j) v) (fun j' hj' => hkeys ▸
      hmem j' (List.mem_cons_of_mem j hj')), hkeys]

/-- `pyGet` on a list built by pairing an injective key function. -/
theorem pyGet_map_pairs_self {α β γ : Type} [DecidableEq α] (l : List γ)
    (K : γ → α) (V : γ → β) (hK : ∀ a ∈ l, ∀ b ∈ l, K a = K b → a = b)
    (a : γ) (ha : a ∈ l) :
    pyGet (l.map fun c => (K c, V c)) (K a) = some (V a) := by
  induction l with
  | nil => simp at ha
  | cons c l ih =>
    rw [List.map_cons, pyGet_cons]
    by_cases hc : K c = K a
    · rw [if_pos hc, hK c (List.mem_cons_self c l) a ha hc]
    · rw [if_neg hc]
      have ha' : a ∈ l := by
        rcases List.mem_cons.1 ha with h | h
        · exact absurd (h ▸ rfl) hc
        · exact h
      exact ih (fun a' ha' b' hb' => hK a' (List.mem_cons_of_mem c ha') b'
        (List.mem_cons_of_mem c hb')) ha'

theorem pyGet_map_pairs_none {α β γ : Type} [DecidableEq α] (l : List γ)
    (K : γ → α) (V : γ → β) (k : α) (h : ∀ a ∈ l, K a ≠ k) :
    pyGet (l.map fun c => (K c, V c)) k = none := by
  induction l with
  | nil => rfl
  | cons c l ih =>
    rw [List.map_cons, pyGet_cons, if_neg (h c (List.mem_cons_self c l))]
    exact ih (fun a ha => h a (List.mem_cons_of_mem c ha))

/-- `pyGet` on one row `{x_i_0: V 0, ..., x_i_{nb-1}: V (nb-1)}`. -/
theorem pyGet_xrow (nb : Nat) (i : Nat) (V : Nat → Option Nat) (i' j : Nat) :
    pyGet ((List.range nb).map (fun j => (VKey.x i j, V j))) (VKey.x i' j)
      = if i' = i ∧ j < nb then some (V j) else none := by
  by_cases h : i' = i ∧ j < nb
  · rw [if_pos h]
    obtain ⟨rfl, hj⟩ := h
    exact pyGet_map_pairs_self (List.range nb) (fun j => VKey.x i' j) V
      (fun a _ b _ hab => by simpa using hab) j (List.mem_range.2 hj)
  · rw [if_neg h]
    refine pyGet_map_pairs_none (List.range nb) (fun j => VKey.x i j) V _ ?_
    intro a ha hc
    simp only [VKey.x.injEq] at hc
    exact h ⟨hc.1.symm, hc.2 ▸ List.mem_range.1 ha⟩

theorem pyGet_xrow_y (nb : Nat) (i : Nat) (V : Nat → Option Nat) (j : Nat) :
    pyGet ((List.range nb).map (fun j => (VKey.x i j, V j))) (VKey.y j) = none := by
  refine pyGet_map_pairs_none (List.range nb) (fun j => VKey.x i j) V _ ?_
  intro a _ hc
  exact VKey.noConfusion hc

theorem pyGet_yrow (nb : Nat) (V : Nat → Option Nat) (j : Nat) :
    pyGet ((List.range nb).map (fun j => (VKey.y j, V j))) (VKey.y j)
      = if j < nb then some (V j) else none := by
  by_cases h : j < nb
  · rw [if_pos h]
    exact pyGet_map_pairs_self (List.range nb) VKey.y V
      (fun a _ b _ hab => by simpa using hab) j (List.mem_range.2 h)
  · rw [if_neg h]
    refine pyGet_map_pairs_none (List.range nb) VKey.y V _ ?_
    intro a ha hc
    simp only [VKey.y.injEq] at hc
    exact h (hc ▸ List.mem_range.1 ha)

theorem pyGet_yrow_x (nb : Nat) (V : Nat → Option Nat) (i j : Nat) :
    pyGet ((List.range nb).map (fun j => (VKey.y j, V j))) (VKey.x i j) = none := by
  refine pyGet_map_pairs_none (List.range nb) VKey.y V _ ?_
  intro a _ hc
  exact VKey.noConfusion hc

/-- `pyGet` on the block of assignment-variable entries laid out row by
row (`i = 0, ..., ni-1`, inner index `j = 0, ..., nb-1`). -/
theorem pyGet_xblock (ni nb : Nat) (V : Nat → Nat → Option Nat) (i j : Nat) :
    pyGet ((List.range ni).flatMap
        (fun i => (List.range nb).map (fun j => (VKey.x i j, V i j)))) (VKey.x i j)
      = if i < ni ∧ j < nb then some (V i j) else none := by
  induction ni with
  | zero =>
    rw [if_neg (by omega : ¬(i < 0 ∧ j < nb))]
    rfl
  | succ n ih =>
    rw [show List.range (n+1) = List.range n ++ [n] from List.range_succ n,
      List.flatMap_append, pyGet_append, ih]
    simp only [List.flatMap_cons, List.flatMap_nil, List.append_nil]
    by_cases h1 : i < n ∧ j < nb
    · rw [if_pos h1]
      rw [orElse_some]
      rw [if_pos (show i < n + 1 ∧ j < nb by omega)]
    · rw [if_neg h1]
      rw [orElse_none]
      rw [pyGet_xrow]
      by_cases h2 : i = n ∧ j < nb
      · rw [if_pos h2, if_pos (show i < n + 1 ∧ j < nb by omega), h2.1]
      · rw [if_neg h2, if_neg (show ¬(i < n + 1 ∧ j < nb) by omega)]

theorem pyGet_xblock_y (ni nb : Nat) (V : Nat → Nat → Option Nat) (j : Nat) :
    pyGet ((List.range ni).flatMap
        (fun i => (List.range nb).map (fun j => (VKey.x i j, V i j)))) (VKey.y j)
      = none := by
  induction ni with
  | zero => rfl
  | succ n ih =>
    rw [show List.range (n+1) = List.range n ++ [n] from List.range_succ n,
      List.flatMap_append, pyGet_append, ih]
    simp only [List.flatMap_cons, List.flatMap_nil, List.append_nil]
    rw [orElse_none]
    exact pyGet_xrow_y nb n (V n) j

/-- The double insertion loop of `solution_dict` appends the
assignment-variable entries row by row. -/
theorem foldl_insert_x (I : List Nat) (nb : Nat) (d : PyDict)
    (hI : I.Nodup) (hd : ∀ i ∈ I, ∀ j, VKey.x i j ∉ d.map Prod.fst) :
    I.foldl (fun d i => (List.range nb).foldl
        (fun d j => pySet d (VKey.x i j) none) d) d
      = d ++ I.flatMap (fun i => (List.range nb).map
          (fun j => (VKey.x i j, (none : Option Nat)))) := by
  induction I generalizing d with
  | nil => simp
  | cons i I ih =>
    simp only [List.foldl_cons]
    have hinner : (List.range nb).foldl (fun d j => pySet d (VKey.x i j) none) d
        = d ++ (List.range nb).map (fun j => (VKey.x i j, (none : Option Nat))) := by
      have h1 := foldl_pySet_fresh ((List.range nb).map (VKey.x i))
        (fun _ => (none : Option Nat)) d
        ((List.nodup_range nb).map (fun a b hab => by simpa using hab))
        (by
          intro k hk
          obtain ⟨j, _, rfl⟩ := List.mem_map.1 hk
          exact hd i (List.mem_cons_self i I) j)
      rw [List.foldl_map] at h1
      rw [h1, List.map_map]
      rfl
    rw [hinner, ih]
    · simp
    · exact (List.nodup_cons.1 hI).2
    · intro i' hi' j
      simp only [List.map_append, List.mem_append, not_or]
      refine ⟨hd i' (List.mem_cons_of_mem i hi') j, ?_⟩
      intro hc
      rw [List.map_map] at hc
      obtain ⟨j', _, hj'⟩ := List.mem_map.1 hc
      have : VKey.x i j' = VKey.x i' j := hj'
      simp only [VKey.x.injEq] at this
      exact (List.nodup_cons.1 hI).1 (this.1 ▸ hi')

/-- The `x_{i}_{j}` keys of the initial dictionary. -/
def xkeys (ni nb : Nat) : List VKey :=
  (List.range ni).flatMap (fun i => (List.range nb).map (VKey.x i))

/-- Key sequence of every dictionary `solution_dict` produces:
bin variables first, then assignment variables row by row. -/
def solution_keys (ni nb : Nat) : List VKey :=
  (List.range nb).map VKey.y ++ xkeys ni nb

theorem nodup_xkeys (ni nb : Nat) : (xkeys ni nb).Nodup := by
  refine List.nodup_flatMap.2 ⟨?_, ?_⟩
  · intro i _
    exact (List.nodup_range nb).map (fun a b hab => by simpa using hab)
  · refine (List.pairwise_lt_range ni).imp ?_
    intro a b hab
    intro k hka hkb
    obtain ⟨j, _, rfl⟩ := List.mem_map.1 hka
    obtain ⟨j', _, hj'⟩ := List.mem_map.1 hkb
    simp only [VKey.x.injEq] at hj'
    exact absurd hj'.1 (Nat.ne_of_gt hab)

theorem nodup_solution_keys (ni nb : Nat) : (solution_keys ni nb).Nodup := by
  refine List.Nodup.append ?_ (nodup_xkeys ni nb) ?_
  · exact (List.nodup_range nb).map (fun a b hab => by simpa using hab)
  · intro k hky hkx
    obtain ⟨j, _, rfl⟩ := List.mem_map.1 hky
    obtain ⟨i, _, hk⟩ := List.mem_flatMap.1 hkx
    obtain ⟨j', _, hj'⟩ := List.mem_map.1 hk
    exact VKey.noConfusion hj'

/-- Any dictionary shaped like the output of `solution_dict` has key
sequence `solution_keys`. -/
theorem keys_dict_shape (ni nb : Nat) (Vy : Nat → Option Nat)
    (Vx : Nat → Nat → Option Nat) :
    ((List.range nb).map (fun j => (VKey.y j, Vy j))
      ++ (List.range ni).flatMap (fun i => (List.range nb).map
          (fun j => (VKey.x i j, Vx i j)))).map Prod.fst
      = solution_keys ni nb := by
  rw [List.map_append, List.map_map, List.map_flatMap]
  unfold solution_keys xkeys
  refine congrArg₂ (· ++ ·) rfl ?_
  refine List.flatMap_congr ?_
  intro i _
  rw [List.map_map]
  rfl

theorem y_mem_solution_keys {j nb : Nat} (ni : Nat) (hj : j < nb) :
    VKey.y j ∈ solution_keys ni nb := by
  unfold solution_keys
  exact List.mem_append_left _ (List.mem_map_of_mem VKey.y (List.mem_range.2 hj))

theorem x_mem_solution_keys {i j ni nb : Nat} (hi : i < ni) (hj : j < nb) :
    VKey.x i j ∈ solution_keys ni nb := by
  unfold solution_keys xkeys
  refine List.mem_append_right _ (List.mem_flatMap.2 ⟨i, List.mem_range.2 hi, ?_⟩)
  exact List.mem_map_of_mem (VKey.x i) (List.mem_range.2 hj)

theorem pyGet_dict_shape_y (ni nb : Nat) (Vy : Nat → Option Nat)
    (Vx : Nat → Nat → Option Nat) (j : Nat) :
    pyGet ((List.range nb).map (fun j => (VKey.y j, Vy j))
        ++ (List.range ni).flatMap (fun i => (List.range nb).map
            (fun j => (VKey.x i j, Vx i j)))) (VKey.y j)
      = if j < nb then some (Vy j) else none := by
  rw [pyGet_append, pyGet_yrow, pyGet_xblock_y]
  by_cases h : j < nb
  · rw [if_pos h, orElse_some]
  · rw [if_neg h, orElse_none]

theorem pyGet_dict_shape_x (ni nb : Nat) (Vy : Nat → Option Nat)
    (Vx : Nat → Nat → Option Nat) (i j : Nat) :
    pyGet ((List.range nb).map (fun j => (VKey.y j, Vy j))
        ++ (List.range ni).flatMap (fun i => (List.range nb).map
            (fun j => (VKey.x i j, Vx i j)))) (VKey.x i j)
      = if i < ni ∧ j < nb then some (Vx i j) else none := by
  rw [pyGet_append, pyGet_yrow_x, orElse_none, pyGet_xblock]

/-- The dictionary returned by `solution_dict` with
`simplifications = True`, as described by the claim: bin variables
`y_j` bound to `1` below `min_bins` and unset above, `x_0_0 = 1`,
`x_0_j = 0` for the remaining bins, and every other assignment variable
unset. -/
def simplified_solution_dict (ni nb : Nat) (mb : Int) : PyDict :=
  (List.range nb).map (fun j => (VKey.y j, if (j : Int) < mb then some 1 else none))
  ++ (List.range ni).flatMap (fun i => (List.range nb).map (fun j =>
      (VKey.x i j, if i = 0 then (if j = 0 then some 1 else some 0) else none)))

/-- The dictionary returned by `solution_dict` with
`simplifications = False`: every variable unset. -/
def blank_solution_dict (ni nb : Nat) : PyDict :=
  (List.range nb).map (fun j => (VKey.y j, none))
  ++ (List.range ni).flatMap (fun i => (List.range nb).map (fun j =>
      (VKey.x i j, none)))

theorem solution_dict_false (w : List Int) (W : Int) (ni nb : Nat)
    (prev : Option Int) :
    solution_dict w W ni nb false prev = .ok ⟨blank_solution_dict ni nb, prev⟩ := by
  unfold solution_dict
  rw [if_neg (by decide : ¬(false = true))]
  rw [foldl_insert_x (List.range ni) nb _ (List.nodup_range ni) ?_]
  · rfl
  · intro i _ j hc
    rw [List.map_map] at hc
    obtain ⟨j', _, hj'⟩ := List.mem_map.1 hc
    exact VKey.noConfusion hj'

/-- The update stages of `solution_dict` (on top of the freshly built
blank dictionary) produce exactly the claimed dictionary. -/
theorem solution_dict_updates (ni nb : Nat) (mb : Int)
    (hni : 1 ≤ ni) (hnb : 1 ≤ nb) :
    (List.range' 1 (nb - 1)).foldl (fun d j => pySet d (VKey.x 0 j) (some 0))
      (pySet ((List.range nb).foldl
          (fun d (j : Nat) => if (j : Int) < mb then pySet d (VKey.y j) (some 1) else d)
          (blank_solution_dict ni nb))
        (VKey.x 0 0) (some 1))
      = simplified_solution_dict ni nb mb := by
  have hkblank : (blank_solution_dict ni nb).map Prod.fst = solution_keys ni nb :=
    keys_dict_shape ni nb _ _
  have hkY : ((List.range nb).foldl
      (fun d (j : Nat) => if (j : Int) < mb then pySet d (VKey.y j) (some 1) else d)
      (blank_solution_dict ni nb)).map Prod.fst = solution_keys ni nb := by
    rw [keys_foldl_pySet_cond (fun j => (j : Int) < mb) VKey.y (some 1) _ _ ?_, hkblank]
    intro j hj _
    rw [hkblank]
    exact y_mem_solution_keys ni (List.mem_range.1 hj)
  have hkP : ((pySet ((List.range nb).foldl
      (fun d (j : Nat) => if (j : Int) < mb then pySet d (VKey.y j) (some 1) else d)
      (blank_solution_dict ni nb)) (VKey.x 0 0) (some 1))).map Prod.fst
      = solution_keys ni nb := by
    rw [keys_pySet_of_mem (some 1) (by rw [hkY]; exact x_mem_solution_keys hni hnb), hkY]
  refine pydict_ext ?_ ?_ ?_
  · rw [keys_foldl_pySet (VKey.x 0) (some 0) _ _ ?_, hkP]
    · exact (keys_dict_shape ni nb _ _).symm
    · intro j hj
      rw [hkP]
      have := List.mem_range'_1.1 hj
      exact x_mem_solution_keys hni (by omega)
  · rw [keys_foldl_pySet (VKey.x 0) (some 0) _ _ ?_, hkP]
    · exact nodup_solution_keys ni nb
    · intro j hj
      rw [hkP]
      have := List.mem_range'_1.1 hj
      exact x_mem_solution_keys hni (by omega)
  · intro k
    rw [pyGet_foldl_pySet, pyGet_pySet,
      pyGet_foldl_pySet_cond (fun j => (j : Int) < mb) VKey.y (some 1)]
    cases k with
    | y j =>
      have hcA : ¬∃ j' ∈ List.range' 1 (nb - 1), VKey.x 0 j' = VKey.y j := by
        rintro ⟨j', _, hc⟩
        exact VKey.noConfusion hc
      have hcB : VKey.y j ≠ VKey.x 0 0 := fun hc => VKey.noConfusion hc
      rw [if_neg hcA, if_neg hcB]
      unfold blank_solution_dict simplified_solution_dict
      rw [pyGet_dict_shape_y, pyGet_dict_shape_y]
      by_cases hj : j < nb
      · by_cases hmb : (j : Int) < mb
        · have hcY : ∃ j' ∈ List.range nb, (j' : Int) < mb ∧ VKey.y j' = VKey.y j :=
            ⟨j, List.mem_range.2 hj, hmb, rfl⟩
          rw [if_pos hcY]
          simp only [if_pos hj, if_pos hmb]
        · have hcY : ¬∃ j' ∈ List.range nb, (j' : Int) < mb ∧ VKey.y j' = VKey.y j := by
            rintro ⟨j', _, hmb', heq⟩
            injection heq with h
            exact hmb (h ▸ hmb')
          rw [if_neg hcY]
          simp only [if_pos hj, if_neg hmb]
      · have hcY : ¬∃ j' ∈ List.range nb, (j' : Int) < mb ∧ VKey.y j' = VKey.y j := by
          rintro ⟨j', hj', _, heq⟩
          injection heq with h
          exact hj (h ▸ List.mem_range.1 hj')
        rw [if_neg hcY]
        simp only [if_neg hj]
    | x i j =>
      by_cases hi0 : i = 0
      · subst hi0
        by_cases hj0 : j = 0
        · subst hj0
          have hcA : ¬∃ j' ∈ List.range' 1 (nb - 1), VKey.x 0 j' = VKey.x 0 0 := by
            rintro ⟨j', hj', hc⟩
            injection hc with h1 h2
            rw [List.mem_range'_1] at hj'
            omega
          rw [if_neg hcA, if_pos rfl]
          unfold simplified_solution_dict
          rw [pyGet_dict_shape_x, if_pos (show 0 < ni ∧ 0 < nb from ⟨hni, hnb⟩)]
          rfl
        · by_cases hjb : j < nb
          · have hcA : ∃ j' ∈ List.range' 1 (nb - 1), VKey.x 0 j' = VKey.x 0 j :=
              ⟨j, List.mem_range'_1.2 (by omega), rfl⟩
            rw [if_pos hcA]
            unfold simplified_solution_dict
            rw [pyGet_dict_shape_x, if_pos (show 0 < ni ∧ j < nb from ⟨hni, hjb⟩),
              if_pos (rfl : (0 : Nat) = 0), if_neg hj0]
          · have hcA : ¬∃ j' ∈ List.range' 1 (nb - 1), VKey.x 0 j' = VKey.x 0 j := by
              rintro ⟨j', hj', hc⟩
              injection hc with h1 h2
              rw [List.mem_range'_1] at hj'
              omega
            have hcB : VKey.x 0 j ≠ VKey.x 0 0 := by
              intro hc
              injection hc with h1 h2
              exact hj0 h2
            have hcY : ¬∃ j' ∈ List.range nb, (j' : Int) < mb ∧ VKey.y j' = VKey.x 0 j := by
              rintro ⟨j', _, _, hc⟩
              exact VKey.noConfusion hc
            rw [if_neg hcA, if_neg hcB, if_neg hcY]
            unfold blank_solution_dict simplified_solution_dict
            rw [pyGet_dict_shape_x, pyGet_dict_shape_x]
            have hcond : ¬(0 < ni ∧ j < nb) := by omega
            simp only [if_neg hcond]
      · have hcA : ¬∃ j' ∈ List.range' 1 (nb - 1), VKey.x 0 j' = VKey.x i j := by
          rintro ⟨j', _, hc⟩
          injection hc with h1 h2
          exact hi0 h1.symm
        have hcB : VKey.x i j ≠ VKey.x 0 0 := by
          intro hc
          injection hc with h1 h2
          exact hi0 h1
        have hcY : ¬∃ j' ∈ List.range nb, (j' : Int) < mb ∧ VKey.y j' = VKey.x i j := by
          rintro ⟨j', _, _, hc⟩
          exact VKey.noConfusion hc
        rw [if_neg hcA, if_neg hcB, if_neg hcY]
        unfold blank_solution_dict simplified_solution_dict
        rw [pyGet_dict_shape_x, pyGet_dict_shape_x]
        by_cases hij : i < ni ∧ j < nb
        · simp only [if_pos hij, if_neg hi0]
        · simp only [if_neg hij]

/-- `solution_dict` with `simplifications = True` and a successful
`min_bins` computation returns exactly the claimed dictionary and sets
`self.min_bins`. -/
theorem solution_dict_true (w : List Int) (W : Int) (ni nb : Nat)
    (prev : Option Int) (mb : Int) (h : min_bins_calc w W = .ok mb)
    (hni : 1 ≤ ni) (hnb : 1 ≤ nb) :
    solution_dict w W ni nb true prev
      = .ok ⟨simplified_solution_dict ni nb mb, some mb⟩ := by
  unfold solution_dict
  rw [if_pos rfl, h]
  rw [foldl_insert_x (List.range ni) nb _ (List.nodup_range ni) ?_]
  · rw [show ((List.range nb).map (fun j => (VKey.y j, (none : Option Nat)))
        ++ (List.range ni).flatMap (fun i => (List.range nb).map
            (fun j => (VKey.x i j, (none : Option Nat)))))
        = blank_solution_dict ni nb from rfl]
    exact congrArg
      (fun d : PyDict =>
        (Except.ok ⟨d, some mb⟩ : Except PyError SolutionDictResult))
      (solution_dict_updates ni nb mb hni hnb)
  · intro i _ j hc
    rw [List.map_map] at hc
    obtain ⟨j', _, hj'⟩ := List.mem_map.1 hc
    exact VKey.noConfusion hj'

/-! # Supporting lemmas for the claims -/

/-- For a positive divisor, `ceil_div` is the mathematical ceiling of
the rational quotient — i.e. exactly `np.ceil` on the exact ratio. -/
theorem ceil_div_eq_ceil (a b : Int) (hb : 0 < b) :
    ceil_div a b = ⌈(a : ℚ) / (b : ℚ)⌉ := by
  have hfl : ⌊((-a : ℤ) : ℚ) / ((b.toNat : ℕ) : ℚ)⌋ = (-a) / ((b.toNat : ℕ) : ℤ) :=
    Rat.floor_intCast_div_natCast (-a) b.toNat
  have hbq : ((b.toNat : ℕ) : ℚ) = (b : ℚ) := by
    rw [← Int.cast_natCast, Int.toNat_of_nonneg hb.le]
  rw [hbq, Int.toNat_of_nonneg hb.le] at hfl
  push_cast at hfl
  unfold ceil_div
  rw [Int.fdiv_eq_ediv _ hb.le]
  rw [show ((-a) / b : ℤ) = ⌊(-(a : ℚ)) / (b : ℚ)⌋ from hfl.symm]
  rw [neg_div, Int.floor_neg, neg_neg]

theorem min_bins_calc_ok (w : List Int) (W : Int) (hW : W ≠ 0) :
    min_bins_calc w W = .ok (ceil_div w.sum W) := by
  unfold min_bins_calc
  rw [if_neg hW]

theorem min_bins_calc_zero (w : List Int) :
    min_bins_calc w 0
      = .error (if w.sum = 0 then PyError.valueError else PyError.overflowError) := by
  unfold min_bins_calc
  rw [if_pos rfl]
  by_cases h : w.sum = 0
  · rw [if_pos h, if_pos h]
  · rw [if_neg h, if_neg h]

theorem solution_dict_zero_fails (w : List Int) (ni nb : Nat) (prev : Option Int) :
    ∃ e, solution_dict w 0 ni nb true prev = .error e := by
  by_cases hs : w.sum = 0
  · refine ⟨.valueError, ?_⟩
    unfold solution_dict
    rw [if_pos rfl, min_bins_calc_zero, if_pos hs]
  · refine ⟨.overflowError, ?_⟩
    unfold solution_dict
    rw [if_pos rfl, min_bins_calc_zero, if_neg hs]

theorem build_instance_error (st : BinPackingState) (e : PyError)
    (h : solution_dict st.weights st.weight_capacity st.n_items st.n_bins
        st.simplifications st.min_bins = .error e) :
    build_instance st = .error e := by
  unfold build_instance
  rw [h]

/-- The gate loop of `parametric_qaoa_circuit`, flattened. -/
theorem foldl_gate_step (ac : List AbstractGate) (c0 : List CircuitElem)
    (p0 : List String) :
    ac.foldl (fun acc g =>
        (acc.1 ++ g.decomposition.map (fun t => CircuitElem.gateApp t g.pauli_label),
         acc.2 ++ [g.pauli_label])) (c0, p0)
      = (c0 ++ ac.flatMap (fun g => g.decomposition.map
            (fun t => CircuitElem.gateApp t g.pauli_label)),
         p0 ++ ac.map (fun g => g.pauli_label)) := by
  induction ac generalizing c0 p0 with
  | nil => simp
  | cons g ac ih =>
    simp only [List.foldl_cons, ih, List.flatMap_cons, List.map_cons]
    simp [List.append_assoc]

/-! # Sum, count and enumeration lemmas for `constraints_not_fulfilled` -/

theorem list_range_sum (n : Nat) (f : Nat → Int) :
    ((List.range n).map f).sum = ∑ q in Finset.range n, f q := by
  induction n with
  | zero => simp
  | succ n ih => rw [Finset.sum_range_succ, List.range_succ] ; simp [ih]

/-- `vec = zeros(n); vec[ps] = 1; np.sum(vec * arr)` sums `arr` over the
(duplicate-free, in-range) positions `ps`. -/
theorem sum_indicator_mul (ps : List Nat) (n : Nat) (f : Nat → Int)
    (hnd : ps.Nodup) (hlt : ∀ p ∈ ps, p < n) :
    ((List.range n).map (fun q => (if q ∈ ps then (1 : Int) else 0) * f q)).sum
      = (ps.map f).sum := by
  induction ps with
  | nil => simp
  | cons p ps ih =>
    have hp : p ∉ ps := (List.nodup_cons.1 hnd).1
    have hpoint : ∀ q, (if q ∈ p :: ps then (1 : Int) else 0) * f q
        = (if q ∈ ps then (1 : Int) else 0) * f q + (if q = p then f q else 0) := by
      intro q
      by_cases hqp : q = p
      · subst hqp
        rw [if_pos (List.mem_cons_self q ps), if_neg hp, if_pos rfl]
        ring
      · by_cases hqs : q ∈ ps
        · rw [if_pos (List.mem_cons_of_mem p hqs), if_pos hqs, if_neg hqp]
          ring
        · rw [if_neg (by simp [hqp, hqs]), if_neg hqs, if_neg hqp]
          ring
    rw [list_range_sum, Finset.sum_congr rfl (fun q _ => hpoint q),
      Finset.sum_add_distrib, Finset.sum_ite_eq' (Finset.range n) p f,
      if_pos (Finset.mem_range.2 (hlt p (List.mem_cons_self p ps))),
      ← list_range_sum]
    rw [ih (List.nodup_cons.1 hnd).2 (fun q hq => hlt q (List.mem_cons_of_mem p hq))]
    simp [add_comm]

/-- `vec = zeros(n); vec[ps] = ws; np.sum(vec * arr)` computes the dot
product of `ws` with `arr` at the (duplicate-free, in-range) positions
`ps`, generalized over the starting vector. -/
theorem sum_update_foldl (l : List (Nat × Int)) (v : Nat → Int) (n : Nat)
    (f : Nat → Int) (hnd : (l.map Prod.fst).Nodup)
    (hlt : ∀ p ∈ l.map Prod.fst, p < n) :
    ((List.range n).map (fun q =>
        (l.foldl (fun v pw => Function.update v pw.1 pw.2) v) q * f q)).sum
      = (l.map (fun pw => pw.2 * f pw.1)).sum
        + ((List.range n).map (fun q =>
            (if q ∈ l.map Prod.fst then 0 else v q) * f q)).sum := by
  induction l generalizing v with
  | nil => simp
  | cons pw l ih =>
    obtain ⟨p, w⟩ := pw
    simp only [List.map_cons, List.nodup_cons] at hnd
    have hp : p ∉ l.map Prod.fst := hnd.1
    rw [List.foldl_cons]
    rw [ih (Function.update v p w) hnd.2
      (fun q hq => hlt q (List.mem_cons_of_mem p hq))]
    have hpoint : ∀ q, (if q ∈ l.map Prod.fst then 0 else Function.update v p w q) * f q
        = (if q ∈ p :: l.map Prod.fst then 0 else v q) * f q
          + (if q = p then w * f q else 0) := by
      intro q
      by_cases hqp : q = p
      · subst hqp
        rw [if_neg hp, Function.update_same, if_pos (List.mem_cons_self q _), if_pos rfl]
        ring
      · rw [Function.update_noteq hqp, if_neg hqp]
        by_cases hqs : q ∈ l.map Prod.fst
        · rw [if_pos hqs, if_pos (List.mem_cons_of_mem p hqs)]
          ring
        · rw [if_neg hqs, if_neg (by simp [hqp, hqs])]
          ring
    rw [list_range_sum ..]
    conv_lhs => rw [Finset.sum_congr rfl (fun q _ => hpoint q)]
    rw [Finset.sum_add_distrib]
    have hw : ∑ q in Finset.range n, (if q = p then w * f q else 0)
        = w * f p := by
      rw [Finset.sum_ite_eq' (Finset.range n) p (fun q => w * f q),
        if_pos (Finset.mem_range.2 (hlt p (List.mem_cons_self p _)))]
    rw [hw, ← list_range_sum]
    simp only [List.map_cons, List.sum_cons]
    ring

/-- The variant actually used: starting vector `np.zeros(n)`. -/
theorem sum_npAssignVec (ps : List Nat) (ws : List Int) (n : Nat)
    (f : Nat → Int) (hnd : ((ps.zip ws).map Prod.fst).Nodup)
    (hlt : ∀ p ∈ (ps.zip ws).map Prod.fst, p < n) :
    ((List.range n).map (fun q => npAssignVec ps ws q * f q)).sum
      = ((ps.zip ws).map (fun pw => pw.2 * f pw.1)).sum := by
  unfold npAssignVec
  rw [sum_update_foldl (ps.zip ws) (fun _ => 0) n f hnd hlt]
  simp

theorem foldl_count {γ : Type} (l : List γ) (p : γ → Bool) (c0 : Nat) :
    l.foldl (fun c a => if p a then c + 1 else c) c0 = c0 + l.countP p := by
  induction l generalizing c0 with
  | nil => simp
  | cons a l ih =>
    rw [List.foldl_cons, ih]
    by_cases h : p a <;> simp [List.countP_cons, h] <;> omega

theorem enum_range_map {γ : Type} (n : Nat) (C : Nat → γ) :
    ((List.range n).map C).enum = (List.range n).map (fun j => (j, C j)) := by
  apply List.ext_getElem
  · simp
  · intro i h1 h2
    simp only [List.enum_length, List.length_map, List.length_range] at h1 h2
    rw [List.getElem_enum, List.getElem_map, List.getElem_map, List.getElem_range]

theorem foldlM_except_ok {γ δ ε : Type} (l : List γ) (step : δ → γ → Except ε δ)
    (g : δ → γ → δ) (init : δ) (h : ∀ b a, step b a = .ok (g b a)) :
    l.foldlM step init = .ok (l.foldl g init) := by
  induction l generalizing init with
  | nil => rfl
  | cons a l ih =>
    rw [List.foldlM_cons, h, List.foldl_cons]
    exact ih (g init a)

theorem foldlM_except_error_head {γ δ ε : Type} (a : γ) (l : List γ)
    (step : δ → γ → Except ε δ) (init : δ) (e : ε) (h : step init a = .error e) :
    (a :: l).foldlM step init = .error e := by
  rw [List.foldlM_cons, h]
  rfl

theorem tail_eq_map_getD (w : List Int) :
    w.tail = (List.range' 1 (w.length - 1)).map (fun i => w.getD i 0) := by
  apply List.ext_getElem
  · simp
  · intro i h1 h2
    simp only [List.length_tail] at h1
    rw [List.getElem_tail, List.getElem_map, List.getElem_range']
    rw [List.getD_eq_getElem w 0 (by omega)]
    congr 1
    omega

/-! # Binary variables of a freshly built simplified instance -/

/-- The binary decision variables of the simplified model, in creation
order: the unfixed bin variables (`min_bins ≤ j`), then the assignment
variables of the non-fixed items `1 ≤ i < n_items`, row by row. -/
def free_binary_vars (ni nb : Nat) (mb : Int) : List VKey :=
  ((List.range nb).filter (fun (j : Nat) => decide (mb ≤ (j : Int)))).map VKey.y
  ++ (List.range' 1 (ni - 1)).flatMap (fun i => (List.range nb).map (VKey.x i))

/-- `self.vars_pos` of a freshly built simplified instance. -/
def var_position (ni nb : Nat) (mb : Int) (k : VKey) : Nat :=
  (free_binary_vars ni nb mb).indexOf k

theorem range_eq_cons_range' {n : Nat} (hn : 1 ≤ n) :
    List.range n = 0 :: List.range' 1 (n - 1) := by
  rw [List.range_eq_range']
  cases n with
  | zero => omega
  | succ m => rw [List.range'_succ] ; rfl

theorem binary_vars_of_simplified (ni nb : Nat) (mb : Int) (hni : 1 ≤ ni) :
    binary_vars_of (simplified_solution_dict ni nb mb)
      = free_binary_vars ni nb mb := by
  unfold binary_vars_of simplified_solution_dict free_binary_vars
  rw [List.filter_append, List.map_append]
  congr 1
  · rw [List.filter_map, List.map_map]
    rw [List.filter_congr (l := List.range nb)
      (q := fun (j : Nat) => decide (mb ≤ (j : Int))) ?_]
    · rfl
    · intro j _
      simp only [Function.comp_apply]
      by_cases h : (j : Int) < mb
      · rw [if_pos h, decide_eq_decide]
        constructor
        · intro hc
          exact absurd hc (by simp)
        · intro hc
          omega
      · rw [if_neg h, decide_eq_decide]
        constructor
        · intro _
          omega
        · intro _
          rfl
  · rw [range_eq_cons_range' hni, List.flatMap_cons, List.filter_append,
      List.map_append]
    have h0 : ((List.range nb).map (fun j => (VKey.x 0 j,
        if 0 = 0 then (if j = 0 then some 1 else some 0) else none))).filter
          (fun p => decide (p.2 = none)) = [] := by
      rw [List.filter_map]
      rw [List.filter_congr (l := List.range nb) (q := fun _ => false) ?_]
      · rw [List.filter_false, List.map_nil]
      · intro j _
        by_cases hj : j = 0 <;> simp [hj]
    rw [h0, List.map_nil, List.nil_append]
    have hrest : ((List.range' 1 (ni - 1)).flatMap (fun i => (List.range nb).map
        (fun j => (VKey.x i j,
          if i = 0 then (if j = 0 then some 1 else some 0) else none)))).filter
          (fun p => decide (p.2 = none))
        = (List.range' 1 (ni - 1)).flatMap (fun i => (List.range nb).map
            (fun j => (VKey.x i j,
              if i = 0 then (if j = 0 then some 1 else some 0) else none))) := by
      rw [List.filter_eq_self]
      intro a ha
      obtain ⟨i, hi, ha2⟩ := List.mem_flatMap.1 ha
      obtain ⟨j, _, rfl⟩ := List.mem_map.1 ha2
      have : 1 ≤ i := (List.mem_range'_1.1 hi).1
      simp [show i ≠ 0 by omega]
    rw [hrest, List.map_flatMap]
    refine List.flatMap_congr ?_
    intro i _
    rw [List.map_map]
    rfl

theorem nodup_free_binary_vars (ni nb : Nat) (mb : Int) :
    (free_binary_vars ni nb mb).Nodup := by
  unfold free_binary_vars
  refine List.Nodup.append ?_ ?_ ?_
  · exact (List.Nodup.filter _ (List.nodup_range nb)).map
      (fun a b hab => by simpa using hab)
  · refine List.nodup_flatMap.2 ⟨?_, ?_⟩
    · intro i _
      exact (List.nodup_range nb).map (fun a b hab => by simpa using hab)
    · refine (List.pairwise_lt_range' 1 (ni - 1)).imp ?_
      intro a b hab k hka hkb
      obtain ⟨j, _, rfl⟩ := List.mem_map.1 hka
      obtain ⟨j', _, hj'⟩ := List.mem_map.1 hkb
      simp only [VKey.x.injEq] at hj'
      exact absurd hj'.1 (Nat.ne_of_gt hab)
  · intro k hky hkx
    obtain ⟨j, _, rfl⟩ := List.mem_map.1 hky
    obtain ⟨i, _, hk⟩ := List.mem_flatMap.1 hkx
    obtain ⟨j', _, hj'⟩ := List.mem_map.1 hk
    exact VKey.noConfusion hj'

theorem y_mem_free_binary_vars (ni nb : Nat) (mb : Int) (j : Nat) :
    VKey.y j ∈ free_binary_vars ni nb mb ↔ (j < nb ∧ mb ≤ (j : Int)) := by
  unfold free_binary_vars
  simp [List.mem_range'_1]

theorem x_mem_free_binary_vars (ni nb : Nat) (mb : Int) (i j : Nat)
    (hni : 1 ≤ ni) :
    VKey.x i j ∈ free_binary_vars ni nb mb ↔ (1 ≤ i ∧ i < ni ∧ j < nb) := by
  unfold free_binary_vars
  simp only [List.mem_append, List.mem_map, List.mem_filter, List.mem_range,
    List.mem_flatMap, List.mem_range'_1]
  constructor
  · rintro (⟨j', _, hc⟩ | ⟨i', hi', j', hj', hc⟩)
    · exact VKey.noConfusion hc
    · injection hc with h1 h2
      subst h1
      subst h2
      refine ⟨hi'.1, by omega, hj'⟩
  · rintro ⟨h1, h2, h3⟩
    exact Or.inr ⟨i, ⟨h1, by omega⟩, j, h3, rfl⟩

theorem var_position_lt (ni nb : Nat) (mb : Int) (k : VKey)
    (h : k ∈ free_binary_vars ni nb mb) :
    var_position ni nb mb k < (free_binary_vars ni nb mb).length :=
  List.indexOf_lt_length.2 h

theorem var_position_inj (ni nb : Nat) (mb : Int) {a b : VKey}
    (ha : a ∈ free_binary_vars ni nb mb) (hb : b ∈ free_binary_vars ni nb mb)
    (h : var_position ni nb mb a = var_position ni nb mb b) : a = b :=
  (List.indexOf_inj ha hb).1 h

theorem vars_pos_simplified (ni nb : Nat) (mb : Int) (hni : 1 ≤ ni) (k : VKey) :
    vars_pos (simplified_solution_dict ni nb mb) k = var_position ni nb mb k := by
  unfold vars_pos var_position
  rw [binary_vars_of_simplified ni nb mb hni]

/-- `docplex_model` on a freshly built simplified instance: one
equality constraint per non-fixed item `i = 1..n_items-1` (that item's
assignment-variable positions, right-hand side `[1]`), and one
inequality constraint per bin `j` whose recorded right-hand side is
`[capacity - weights[0]]` for the fixed bin `0`, `[capacity]` for the
other fixed bins, and the *position* of `y_j` for the free bins. -/
theorem docplex_model_simplified (w : List Int) (W : Int) (ni nb : Nat)
    (mb : Int) :
    docplex_model (simplified_solution_dict ni nb mb) w W ni nb true (some mb) [] []
      = ⟨(List.range' 1 (ni - 1)).map (fun i =>
            (i, ((List.range nb).map (fun j =>
                vars_pos (simplified_solution_dict ni nb mb) (VKey.x i j)),
              [(1 : Int)]))),
         (List.range nb).map (fun j =>
            (j, ((List.range' 1 (ni - 1)).map (fun i =>
                vars_pos (simplified_solution_dict ni nb mb) (VKey.x i j)),
              if (j : Int) < mb then (if j = 0 then [W - w.headI] else [W])
              else [(vars_pos (simplified_solution_dict ni nb mb) (VKey.y j) : Int)]))),
         ⟨binary_vars_of (simplified_solution_dict ni nb mb)⟩⟩ := by
  simp only [docplex_model, if_true, true_and, Option.getD_some]
  congr 1
  · rw [foldl_pySet_fresh (List.range' 1 (ni - 1))
      (fun i => ((List.range nb).map (fun j =>
        vars_pos (simplified_solution_dict ni nb mb) (VKey.x i j)), [(1 : Int)]))
      [] (List.nodup_range' 1 (ni - 1)) (by intro k _ hc ; simp at hc)]
    rw [List.nil_append]
  · rw [show (fun (acc : List (Nat × RecordedConstraint)) (j : Nat) =>
        if (j : Int) < mb then
          if j = 0 then
            pySet acc j ((List.range' 1 (ni - 1)).map
              (fun i => vars_pos (simplified_solution_dict ni nb mb) (VKey.x i j)),
              [W - w.headI])
          else
            pySet acc j ((List.range' 1 (ni - 1)).map
              (fun i => vars_pos (simplified_solution_dict ni nb mb) (VKey.x i j)),
              [W])
        else
          pySet acc j ((List.range' 1 (ni - 1)).map
            (fun i => vars_pos (simplified_solution_dict ni nb mb) (VKey.x i j)),
            [(vars_pos (simplified_solution_dict ni nb mb) (VKey.y j) : Int)]))
      = (fun acc (j : Nat) => pySet acc j
          (((List.range' 1 (ni - 1)).map
            (fun i => vars_pos (simplified_solution_dict ni nb mb) (VKey.x i j))),
           if (j : Int) < mb then (if j = 0 then [W - w.headI] else [W])
           else [(vars_pos (simplified_solution_dict ni nb mb) (VKey.y j) : Int)])) from ?_]
    · rw [foldl_pySet_fresh (List.range nb) _ [] (List.nodup_range nb)
        (by intro k _ hc ; simp at hc)]
      rw [List.nil_append]
    · funext acc j
      by_cases h : (j : Int) < mb
      · by_cases hj : j = 0
        · rw [if_pos h, if_pos hj, if_pos h, if_pos hj]
        · rw [if_pos h, if_neg hj, if_pos h, if_neg hj]
      · rw [if_neg h, if_neg h]

/-- `docplex_model` with `simplifications = False` on fresh constraint
dictionaries: one equality constraint per item, and per bin an
inequality constraint whose recorded right-hand side is the *position*
of the bin variable `y_j`. -/
theorem docplex_model_blank (d : PyDict) (w : List Int) (W : Int)
    (ni nb : Nat) :
    docplex_model d w W ni nb false none [] []
      = ⟨(List.range ni).map (fun i =>
            (i, ((List.range nb).map (fun j => vars_pos d (VKey.x i j)),
              [(1 : Int)]))),
         (List.range nb).map (fun j =>
            (j, ((List.range ni).map (fun i => vars_pos d (VKey.x i j)),
              [(vars_pos d (VKey.y j) : Int)]))),
         ⟨binary_vars_of d⟩⟩ := by
  simp only [docplex_model, Bool.false_eq_true, if_false, false_and]
  congr 1
  · rw [foldl_pySet_fresh (List.range ni)
      (fun i => ((List.range nb).map (fun j => vars_pos d (VKey.x i j)),
        [(1 : Int)]))
      [] (List.nodup_range ni) (by intro k _ hc ; simp at hc)]
    rw [List.nil_append]
  · rw [foldl_pySet_fresh (List.range nb)
      (fun j => ((List.range ni).map (fun i => vars_pos d (VKey.x i j)),
        [(vars_pos d (VKey.y j) : Int)]))
      [] (List.nodup_range nb) (by intro k _ hc ; simp at hc)]
    rw [List.nil_append]

/-- `build_instance` with a successful `solution_dict`. -/
theorem build_instance_ok (st : BinPackingState) (r : SolutionDictResult)
    (h : solution_dict st.weights st.weight_capacity st.n_items st.n_bins
        st.simplifications st.min_bins = .ok r) :
    build_instance st = .ok
      (let b := docplex_model r.dict st.weights st.weight_capacity st.n_items
        st.n_bins st.simplifications r.min_bins st.eq_constraints
        st.ineq_constraints
      { st with solution := some r.dict, min_bins := r.min_bins,
                eq_constraints := b.eq_constraints,
                ineq_constraints := b.ineq_constraints,
                cplex_model := some b.model,
                n_vars := some b.model.binary_vars.length }) := by
  unfold build_instance
  rw [h]

/-- A fresh `BinPacking(w, W, pen, n_bins=nb, simplifications=True,
method=meth)` with non-empty weights, nonzero capacity and at least
one bin constructs exactly this state. -/
theorem binpacking_init_simplified (w : List Int) (W : Int) (pen : List ℚ)
    (nb : Nat) (meth : String) (hw : w ≠ []) (hW : W ≠ 0) (hnb : 1 ≤ nb) :
    BinPacking_init w W pen (some nb) true meth = .ok
      { weights := w, weight_capacity := W, penalty := pen,
        n_items := w.length, method := meth, simplifications := true,
        eq_constraints := (List.range' 1 (w.length - 1)).map (fun i =>
          (i, ((List.range nb).map (fun j =>
              var_position w.length nb (ceil_div w.sum W) (VKey.x i j)),
            [(1 : Int)]))),
        ineq_constraints := (List.range nb).map (fun j =>
          (j, ((List.range' 1 (w.length - 1)).map (fun i =>
              var_position w.length nb (ceil_div w.sum W) (VKey.x i j)),
            if (j : Int) < ceil_div w.sum W then
              (if j = 0 then [W - w.headI] else [W])
            else [(var_position w.length nb (ceil_div w.sum W) (VKey.y j) : Int)]))),
        n_bins := nb, min_bins := some (ceil_div w.sum W),
        solution := some (simplified_solution_dict w.length nb (ceil_div w.sum W)),
        cplex_model := some ⟨free_binary_vars w.length nb (ceil_div w.sum W)⟩,
        n_vars := some (free_binary_vars w.length nb (ceil_div w.sum W)).length } := by
  have hni : 1 ≤ w.length := List.length_pos.2 hw
  unfold BinPacking_init
  rw [if_pos (by simpa [List.length_pos] using hw)]
  rw [build_instance_ok _ ⟨simplified_solution_dict w.length nb (ceil_div w.sum W),
    some (ceil_div w.sum W)⟩
    (solution_dict_true w W w.length nb none _ (min_bins_calc_ok w W hW) hni hnb)]
  have hd := docplex_model_simplified w W w.length nb (ceil_div w.sum W)
  refine congrArg Except.ok ?_
  show (let b :=
          docplex_model (simplified_solution_dict w.length nb (ceil_div w.sum W))
            w W w.length nb true (some (ceil_div w.sum W)) [] [];
      ({ init_state w W pen (some nb) true meth with
          solution := some (simplified_solution_dict w.length nb (ceil_div w.sum W)),
          min_bins := some (ceil_div w.sum W),
          eq_constraints := b.eq_constraints,
          ineq_constraints := b.ineq_constraints,
          cplex_model := some b.model,
          n_vars := some b.model.binary_vars.length } : BinPackingState)) = _
  rw [hd]
  unfold init_state
  simp only [Option.getD_some]
  congr 1
  · refine List.map_congr_left ?_
    intro i _
    refine congrArg _ (congrArg₂ Prod.mk ?_ rfl)
    refine List.map_congr_left ?_
    intro j _
    rw [vars_pos_simplified w.length nb (ceil_div w.sum W) hni]
  · refine List.map_congr_left ?_
    intro j _
    refine congrArg _ (congrArg₂ Prod.mk ?_ ?_)
    · refine List.map_congr_left ?_
      intro i _
      rw [vars_pos_simplified w.length nb (ceil_div w.sum W) hni]
    · by_cases h : (j : Int) < ceil_div w.sum W
      · rw [if_pos h, if_pos h]
      · rw [if_neg h, if_neg h,
          vars_pos_simplified w.length nb (ceil_div w.sum W) hni]
  · rw [binary_vars_of_simplified w.length nb (ceil_div w.sum W) hni]
  · rw [binary_vars_of_simplified w.length nb (ceil_div w.sum W) hni]

/-- A fresh `BinPacking(w, W, pen, n_bins=nb, simplifications=False,
method=meth)` with non-empty weights constructs exactly this state. -/
theorem binpacking_init_blank (w : List Int) (W : Int) (pen : List ℚ)
    (nb : Nat) (meth : String) (hw : w ≠ []) :
    BinPacking_init w W pen (some nb) false meth = .ok
      { weights := w, weight_capacity := W, penalty := pen,
        n_items := w.length, method := meth, simplifications := false,
        eq_constraints := (List.range w.length).map (fun i =>
          (i, ((List.range nb).map (fun j =>
              vars_pos (blank_solution_dict w.length nb) (VKey.x i j)),
            [(1 : Int)]))),
        ineq_constraints := (List.range nb).map (fun j =>
          (j, ((List.range w.length).map (fun i =>
              vars_pos (blank_solution_dict w.length nb) (VKey.x i j)),
            [(vars_pos (blank_solution_dict w.length nb) (VKey.y j) : Int)]))),
        n_bins := nb, min_bins := none,
        solution := some (blank_solution_dict w.length nb),
        cplex_model := some ⟨binary_vars_of (blank_solution_dict w.length nb)⟩,
        n_vars := some (binary_vars_of (blank_solution_dict w.length nb)).length } := by
  unfold BinPacking_init
  rw [if_pos (by simpa [List.length_pos] using hw)]
  rw [build_instance_ok _ ⟨blank_solution_dict w.length nb, none⟩
    (solution_dict_false w W w.length nb none)]
  refine congrArg Except.ok ?_
  show (let b :=
          docplex_model (blank_solution_dict w.length nb)
            w W w.length nb false none [] [];
      ({ init_state w W pen (some nb) false meth with
          solution := some (blank_solution_dict w.length nb),
          min_bins := none,
          eq_constraints := b.eq_constraints,
          ineq_constraints := b.ineq_constraints,
          cplex_model := some b.model,
          n_vars := some b.model.binary_vars.length } : BinPackingState)) = _
  rw [docplex_model_blank (blank_solution_dict w.length nb) w W w.length nb]
  unfold init_state
  simp only [Option.getD_some]

/-! # Bitstring-level reading of the recorded constraints (claim C3) -/

/-- Claim-side: the bitstring violates the equality constraint of
(non-fixed) item `i`: the bits of that item's bin-assignment variables
do not sum to exactly `1`. -/
def item_violated (sol : List Bool) (ni nb : Nat) (mb : Int) (i : Nat) : Bool :=
  decide (((List.range nb).map (fun j =>
    bitAt sol (var_position ni nb mb (VKey.x i j)))).sum ≠ 1)

/-- Claim-side: the capacity available to the non-fixed items in bin
`j`: the recorded constant for the fixed bins (`capacity - weights[0]`
for bin `0`, `capacity` otherwise), and `capacity * y_j` (as read off
the bitstring) for the free bins. -/
def bin_rhs (w : List Int) (W : Int) (sol : List Bool) (ni nb : Nat)
    (mb : Int) (j : Nat) : Int :=
  if (j : Int) < mb then (if j = 0 then W - w.headI else W)
  else W * bitAt sol (var_position ni nb mb (VKey.y j))

/-- Claim-side: the bitstring violates the inequality constraint of bin
`j`: the summed weight of the non-fixed items assigned to bin `j`
exceeds `bin_rhs`. -/
def bin_violated (w : List Int) (W : Int) (sol : List Bool) (ni nb : Nat)
    (mb : Int) (j : Nat) : Bool :=
  decide (bin_rhs w W sol ni nb mb j <
    ((List.range' 1 (ni - 1)).map (fun i =>
      w.getD i 0 * bitAt sol (var_position ni nb mb (VKey.x i j)))).sum)

theorem foldl_count_prop {γ : Type} (l : List γ) (P : γ → Prop)
    [DecidablePred P] (c0 : Nat) :
    l.foldl (fun c a => if P a then c + 1 else c) c0
      = c0 + l.countP (fun a => decide (P a)) := by
  induction l generalizing c0 with
  | nil => simp
  | cons a l ih =>
    rw [List.foldl_cons, ih]
    by_cases h : P a <;> simp [List.countP_cons, h] <;> omega

/-- Nodup and boundedness of the recorded position list of one item /
one bin. -/
theorem psrow_nodup (ni nb : Nat) (mb : Int) (i : Nat) (hni : 1 ≤ ni)
    (hi1 : 1 ≤ i) (hi2 : i < ni) :
    ((List.range nb).map (fun j => var_position ni nb mb (VKey.x i j))).Nodup := by
  refine List.Nodup.map_on ?_ (List.nodup_range nb)
  intro j hj j' hj' hpp
  have h1 : VKey.x i j ∈ free_binary_vars ni nb mb :=
    (x_mem_free_binary_vars ni nb mb i j hni).2 ⟨hi1, hi2, List.mem_range.1 hj⟩
  have h2 : VKey.x i j' ∈ free_binary_vars ni nb mb :=
    (x_mem_free_binary_vars ni nb mb i j' hni).2 ⟨hi1, hi2, List.mem_range.1 hj'⟩
  have := var_position_inj ni nb mb h1 h2 hpp
  injection this

theorem psrow_lt (ni nb : Nat) (mb : Int) (i : Nat) (hni : 1 ≤ ni)
    (hi1 : 1 ≤ i) (hi2 : i < ni) :
    ∀ p ∈ (List.range nb).map (fun j => var_position ni nb mb (VKey.x i j)),
      p < (free_binary_vars ni nb mb).length := by
  intro p hp
  obtain ⟨j, hj, rfl⟩ := List.mem_map.1 hp
  exact var_position_lt ni nb mb _
    ((x_mem_free_binary_vars ni nb mb i j hni).2 ⟨hi1, hi2, List.mem_range.1 hj⟩)

theorem pscol_nodup (ni nb : Nat) (mb : Int) (j : Nat) (hni : 1 ≤ ni)
    (hj : j < nb) :
    ((List.range' 1 (ni - 1)).map
      (fun i => var_position ni nb mb (VKey.x i j))).Nodup := by
  refine List.Nodup.map_on ?_ (List.nodup_range' 1 (ni - 1))
  intro i hi i' hi' hpp
  have hiB := List.mem_range'_1.1 hi
  have hiB' := List.mem_range'_1.1 hi'
  have h1 : VKey.x i j ∈ free_binary_vars ni nb mb :=
    (x_mem_free_binary_vars ni nb mb i j hni).2 ⟨hiB.1, by omega, hj⟩
  have h2 : VKey.x i' j ∈ free_binary_vars ni nb mb :=
    (x_mem_free_binary_vars ni nb mb i' j hni).2 ⟨hiB'.1, by omega, hj⟩
  have := var_position_inj ni nb mb h1 h2 hpp
  injection this

theorem pscol_lt (ni nb : Nat) (mb : Int) (j : Nat) (hni : 1 ≤ ni)
    (hj : j < nb) :
    ∀ p ∈ (List.range' 1 (ni - 1)).map
        (fun i => var_position ni nb mb (VKey.x i j)),
      p < (free_binary_vars ni nb mb).length := by
  intro p hp
  obtain ⟨i, hi, rfl⟩ := List.mem_map.1 hp
  have hiB := List.mem_range'_1.1 hi
  exact var_position_lt ni nb mb _
    ((x_mem_free_binary_vars ni nb mb i j hni).2 ⟨hiB.1, by omega, hj⟩)

/-- The equality-constraint pass of `constraints_not_fulfilled` on a
freshly built simplified instance counts the items whose
bin-assignment bits do not sum to one. -/
theorem eq_count_eval (w : List Int) (nb : Nat) (mb : Int) (sol : List Bool)
    (hni : 1 ≤ w.length) :
    eqViolationCount
      ((List.range' 1 (w.length - 1)).map (fun i =>
        (((List.range nb).map (fun j => var_position w.length nb mb (VKey.x i j))),
         ([1] : List Int))))
      (free_binary_vars w.length nb mb).length sol
    = (List.range' 1 (w.length - 1)).countP (item_violated sol w.length nb mb) := by
  simp only [eqViolationCount]
  rw [foldl_count_prop]
  rw [Nat.zero_add, List.countP_map]
  refine List.countP_congr ?_
  intro i hi
  have hiB := List.mem_range'_1.1 hi
  simp only [Function.comp_apply, item_violated]
  simp only [decide_eq_true_eq]
  rw [sum_indicator_mul _ _ (bitAt sol)
    (psrow_nodup w.length nb mb i hni hiB.1 (by omega))
    (psrow_lt w.length nb mb i hni hiB.1 (by omega))]
  rw [List.map_map]
  exact Iff.rfl

/-- C3 (amended): on a freshly built instance with
`simplifications = True`, non-empty weights, positive capacity and at
least one bin, `constraints_not_fulfilled` returns the number of
violated recorded constraints: one equality constraint per non-fixed
item (its bin-assignment bits must sum to exactly one) plus one
inequality constraint per bin (the summed weight of the non-fixed
items assigned to that bin must not exceed `bin_rhs`: the recorded
constant for the fixed bins, `capacity * y_j` for the free ones).
With `simplifications = False` the method instead raises `TypeError`
on the first inequality constraint (the solution string is indexed
with a list). -/
theorem constraints_not_fulfilled_spec (w : List Int) (W : Int) (pen : List ℚ)
    (nb : Nat) (meth : String) (stT stF : BinPackingState) (sol : List Bool)
    (hw : w ≠ []) (hW : 0 < W) (hnb : 1 ≤ nb)
    (hsol : sol.length = (free_binary_vars w.length nb (ceil_div w.sum W)).length)
    (hT : BinPacking_init w W pen (some nb) true meth = .ok stT)
    (hF : BinPacking_init w W pen (some nb) false meth = .ok stF) :
    constraints_not_fulfilled stT sol
      = .ok ((List.range' 1 (w.length - 1)).countP
            (item_violated sol w.length nb (ceil_div w.sum W))
          + (List.range nb).countP
            (bin_violated w W sol w.length nb (ceil_div w.sum W)))
    ∧ constraints_not_fulfilled stF sol = .error PyError.typeError := by
  have hni : 1 ≤ w.length := List.length_pos.2 hw
  have hTeq := Except.ok.inj
    ((binpacking_init_simplified w W pen nb meth hw (by omega) hnb).symm.trans hT)
  have hFeq := Except.ok.inj
    ((binpacking_init_blank w W pen nb meth hw).symm.trans hF)
  subst hTeq
  subst hFeq
  constructor
  · simp only [constraints_not_fulfilled, Option.getD_some, eq_self_iff_true,
      if_true]
    have hE : (((List.range' 1 (w.length - 1)).map (fun i =>
          (i, ((List.range nb).map (fun j =>
              var_position w.length nb (ceil_div w.sum W) (VKey.x i j)),
            ([1] : List Int))))).map Prod.snd)
        = (List.range' 1 (w.length - 1)).map (fun i =>
            (((List.range nb).map (fun j =>
              var_position w.length nb (ceil_div w.sum W) (VKey.x i j))),
             ([1] : List Int))) := by
      rw [List.map_map]
      rfl
    rw [hE, eq_count_eval w nb (ceil_div w.sum W) sol hni]
    have hI : (((List.range nb).map (fun j =>
          (j, ((List.range' 1 (w.length - 1)).map (fun i =>
              var_position w.length nb (ceil_div w.sum W) (VKey.x i j)),
            if (j : Int) < ceil_div w.sum W then
              (if j = 0 then [W - w.headI] else [W])
            else [(var_position w.length nb (ceil_div w.sum W) (VKey.y j) : Int)])))).map
          Prod.snd)
        = (List.range nb).map (fun j =>
            (((List.range' 1 (w.length - 1)).map (fun i =>
              var_position w.length nb (ceil_div w.sum W) (VKey.x i j))),
             if (j : Int) < ceil_div w.sum W then
               (if j = 0 then [W - w.headI] else [W])
             else [(var_position w.length nb (ceil_div w.sum W) (VKey.y j) : Int)])) := by
      rw [List.map_map]
      rfl
    rw [hI, enum_range_map]
    rw [foldlM_except_ok _ _
      (fun b (a : Nat × RecordedConstraint) =>
        if (if (a.1 : Int) < ceil_div w.sum W then a.2.2.headI
            else W * bitAt sol a.2.2.headI.toNat)
          < ((List.range (free_binary_vars w.length nb (ceil_div w.sum W)).length).map
              (fun q => npAssignVec a.2.1 w.tail q * bitAt sol q)).sum
        then b + 1 else b) _ ?_]
    · refine congrArg Except.ok ?_
      rw [foldl_count_prop]
      congr 1
      rw [List.countP_map]
      refine List.countP_congr ?_
      intro j hj
      have hjb := List.mem_range.1 hj
      simp only [Function.comp_apply, bin_violated]
      simp only [decide_eq_true_eq]
      have hzip : (((List.range' 1 (w.length - 1)).map (fun i =>
            var_position w.length nb (ceil_div w.sum W) (VKey.x i j))).zip w.tail)
          = (List.range' 1 (w.length - 1)).map (fun i =>
              (var_position w.length nb (ceil_div w.sum W) (VKey.x i j),
               w.getD i 0)) := by
        conv_lhs => rw [tail_eq_map_getD w]
        exact List.zip_map' _ _ _
      have hlh : ((List.range (free_binary_vars w.length nb (ceil_div w.sum W)).length).map
            (fun q => npAssignVec ((List.range' 1 (w.length - 1)).map (fun i =>
              var_position w.length nb (ceil_div w.sum W) (VKey.x i j))) w.tail q
              * bitAt sol q)).sum
          = ((List.range' 1 (w.length - 1)).map (fun i =>
              w.getD i 0 * bitAt sol
                (var_position w.length nb (ceil_div w.sum W) (VKey.x i j)))).sum := by
        rw [sum_npAssignVec _ _ _ (bitAt sol) ?_ ?_]
        · rw [hzip, List.map_map]
          rfl
        · rw [hzip, List.map_map]
          exact pscol_nodup w.length nb (ceil_div w.sum W) j hni hjb
        · rw [hzip, List.map_map]
          exact pscol_lt w.length nb (ceil_div w.sum W) j hni hjb
      rw [hlh]
      unfold bin_rhs
      by_cases hmb : (j : Int) < ceil_div w.sum W
      · simp only [if_pos hmb]
        by_cases hj0 : j = 0
        · simp only [if_pos hj0]
          exact Iff.rfl
        · simp only [if_neg hj0]
          exact Iff.rfl
      · simp only [if_neg hmb]
        rw [show (([(var_position w.length nb (ceil_div w.sum W) (VKey.y j) : Int)]).headI).toNat
            = var_position w.length nb (ceil_div w.sum W) (VKey.y j) from by
          simp [List.headI]]
    · intro b a
      by_cases hP : (a.1 : Int) < ceil_div w.sum W <;> simp [hP]
  · simp only [constraints_not_fulfilled, Option.getD_some, Bool.false_eq_true,
      if_false]
    have hI : (((List.range nb).map (fun j =>
          (j, ((List.range w.length).map (fun i =>
              vars_pos (blank_solution_dict w.length nb) (VKey.x i j)),
            [(vars_pos (blank_solution_dict w.length nb) (VKey.y j) : Int)])))).map
          Prod.snd)
        = (List.range nb).map (fun j =>
            (((List.range w.length).map (fun i =>
              vars_pos (blank_solution_dict w.length nb) (VKey.x i j))),
             [(vars_pos (blank_solution_dict w.length nb) (VKey.y j) : Int)])) := by
      rw [List.map_map]
      rfl
    rw [hI, enum_range_map, range_eq_cons_range' hnb, List.map_cons]
    exact foldlM_except_error_head _ _ _ _ _ rfl

/-- C3 counterexample to the claim as stated: on an instance built
with `simplifications = False` (docplex model built, bitstring of
length `n_vars = 6`), `constraints_not_fulfilled` does not return the
number of violated recorded constraints — it raises `TypeError`,
because the unsimplified branch indexes the solution string with the
list `constraint[1]`. -/
theorem constraints_not_fulfilled_claim_counterexample :
    (BinPacking_init [2, 3] 3 [] (some 2) false "slack").toOption.map
      (fun st => constraints_not_fulfilled st
        [false, false, false, false, false, false])
      = some (.error PyError.typeError) := rfl

theorem constraints_not_fulfilled_spec_witness :
    (BinPacking_init [2, 3] 3 [] (some 2) true "slack").toOption.map
      (fun st => constraints_not_fulfilled st [true, false]) = some (.ok 1)
    ∧ (BinPacking_init [2, 3] 3 [] (some 2) false "slack").toOption.map
      (fun st => constraints_not_fulfilled st [true, false])
      = some (.error PyError.typeError) := by
  obtain ⟨stT, hT⟩ : ∃ st, BinPacking_init [2, 3] 3 [] (some 2) true "slack"
      = .ok st := ⟨_, rfl⟩
  obtain ⟨stF, hF⟩ : ∃ st, BinPacking_init [2, 3] 3 [] (some 2) false "slack"
      = .ok st := ⟨_, rfl⟩
  have h := constraints_not_fulfilled_spec [2, 3] 3 [] 2 "slack" stT stF
    [true, false] (by decide) (by decide) (by decide) (by rfl) hT hF
  constructor
  · rw [hT]
    show some (constraints_not_fulfilled stT [true, false]) = some (.ok 1)
    rw [h.1]
    rfl
  · rw [hF]
    show some (constraints_not_fulfilled stF [true, false])
      = some (.error PyError.typeError)
    rw [h.2]

/-! # Claim theorems -/

/-- C1 (code bug): when accessing the job result raises
`AttributeError`, `get_counts` does **not** retry and does **not**
raise `ConnectionError`: the `break` in the `except` branch leaves the
`while` loop after the first failed attempt, and the function then
dies with a `NameError` on the unbound local `counts`.  This holds
both when every attempt would fail and when only the first would
(showing the job is never resubmitted). -/
theorem get_counts_break_bug :
    get_counts (fun _ => JobAttempt.attributeError) = GetCountsResult.nameError
    ∧ get_counts (fun k => if k = 0 then JobAttempt.attributeError
        else JobAttempt.ok [("0", 1)]) = GetCountsResult.nameError :=
  ⟨rfl, rfl⟩

/-- C5: when the cloud job completes successfully, `get_counts` returns
the dictionary of measurement counts of that job and stores the same
dictionary in `self.measurement_outcomes`. -/
theorem get_counts_success_spec (attempts : Nat → JobAttempt) (c : Counts)
    (h : attempts 0 = JobAttempt.ok c) :
    get_counts attempts = GetCountsResult.returns c c := by
  simp [get_counts, get_counts_loop, h, max_job_retries, get_counts_finish]

theorem get_counts_success_spec_witness :
    (fun _ : Nat => JobAttempt.ok [("00", 5)]) 0 = JobAttempt.ok [("00", 5)]
    ∧ get_counts (fun _ => JobAttempt.ok [("00", 5)])
        = GetCountsResult.returns [("00", 5)] [("00", 5)] :=
  ⟨rfl, get_counts_success_spec _ [("00", 5)] rfl⟩

/-- C6: `parametric_qaoa_circuit` builds the Braket circuit in exactly
the order prepend-state, Hadamards over `qubit_layout` (when
`init_hadamard`), the standard decomposition of each abstract gate
(with one fresh `FreeParameter` per gate, collected in
`braket_parameter_list` in gate order), append-state, and a final
`Probability` result type; being a pure function of its inputs it
executes nothing. -/
theorem parametric_qaoa_circuit_spec (prepend_state append_state : Option (List Nat))
    (init_hadamard : Bool) (qubit_layout : List Nat) (ac : List AbstractGate) :
    (parametric_qaoa_circuit prepend_state append_state init_hadamard
        qubit_layout ac).circuit
      = (prepend_state.getD []).map CircuitElem.prepended
        ++ (if init_hadamard then qubit_layout.map CircuitElem.hGate else [])
        ++ ac.flatMap (fun g => g.decomposition.map
            (fun t => CircuitElem.gateApp t g.pauli_label))
        ++ (append_state.getD []).map CircuitElem.appended
        ++ [CircuitElem.probability]
    ∧ (parametric_qaoa_circuit prepend_state append_state init_hadamard
        qubit_layout ac).braket_parameter_list
      = ac.map (fun g => g.pauli_label) := by
  unfold parametric_qaoa_circuit
  cases prepend_state <;> cases append_state <;> cases init_hadamard <;>
    simp [foldl_gate_step, List.append_assoc]

/-- C2: `get_qubo_problem` returns the Ising encoding of the built
docplex model with the penalty configuration selected by
`self.method`: `"slack"` passes `multipliers = self.penalty` (converter
defaults when the penalty list is empty) and leaves
`unbalanced_const = False`; `"unbalanced"` passes
`unbalanced_const = True` with `multipliers = self.penalty[0]` and
`strength_ineq = self.penalty[1:]` (converter defaults when the
penalty list is empty). -/
theorem get_qubo_problem_spec (st : BinPackingState) (m : CplexModel)
    (hm : st.cplex_model = some m) :
    (st.method = "slack" →
      get_qubo_problem st = some (ising_model ⟨m,
        (match st.penalty with
         | [] => Multipliers.default
         | l => Multipliers.list l),
        false, StrengthIneq.default⟩))
    ∧ (st.method = "unbalanced" →
      get_qubo_problem st = some (ising_model ⟨m,
        (match st.penalty with
         | [] => Multipliers.default
         | p :: _ => Multipliers.scalar p),
        true,
        (match st.penalty with
         | [] => StrengthIneq.default
         | _ :: r => StrengthIneq.list r)⟩)) := by
  unfold get_qubo_problem
  rw [hm]
  constructor
  · intro hs
    cases hp : st.penalty with
    | nil => simp [hs]
    | cons p r => simp [hs]
  · intro hs
    cases hp : st.penalty with
    | nil => simp [hs]
    | cons p r => simp [hs]

theorem get_qubo_problem_spec_witness :
    get_qubo_problem
        { weights := [2], weight_capacity := 5, penalty := [3, 7], n_items := 1,
          method := "slack", simplifications := true, eq_constraints := [],
          ineq_constraints := [], n_bins := 1, min_bins := none, solution := none,
          cplex_model := some ⟨[VKey.x 0 0]⟩, n_vars := some 1 }
      = some (ising_model ⟨⟨[VKey.x 0 0]⟩, Multipliers.list [3, 7], false,
          StrengthIneq.default⟩)
    ∧ get_qubo_problem
        { weights := [2], weight_capacity := 5, penalty := [3, 7], n_items := 1,
          method := "unbalanced", simplifications := true, eq_constraints := [],
          ineq_constraints := [], n_bins := 1, min_bins := none, solution := none,
          cplex_model := some ⟨[VKey.x 0 0]⟩, n_vars := some 1 }
      = some (ising_model ⟨⟨[VKey.x 0 0]⟩, Multipliers.scalar 3, true,
          StrengthIneq.list [7]⟩) := by
  constructor
  · exact ((get_qubo_problem_spec _ ⟨[VKey.x 0 0]⟩ rfl).1 rfl).trans rfl
  · exact ((get_qubo_problem_spec _ ⟨[VKey.x 0 0]⟩ rfl).2 rfl).trans rfl

/-- C4: for `simplifications = True`, non-empty weights, positive
capacity (and at least one bin, which the claim's enumeration of
`x_0_0` presumes), `solution_dict` returns the dictionary over the
`n_bins` bin variables and `n_items * n_bins` assignment variables
with `y_j = 1` exactly for `j < ⌈Σ weights / capacity⌉`, `x_0_0 = 1`,
`x_0_j = 0` for `j = 1..n_bins-1` and `None` everywhere else; with
`simplifications = False` every entry is `None`. -/
theorem solution_dict_spec (w : List Int) (W : Int) (nb : Nat) (prev : Option Int)
    (hw : w ≠ []) (hW : 0 < W) (hnb : 1 ≤ nb) :
    solution_dict w W w.length nb true prev
      = .ok ⟨simplified_solution_dict w.length nb (ceil_div w.sum W),
          some (ceil_div w.sum W)⟩
    ∧ solution_dict w W w.length nb false prev
      = .ok ⟨blank_solution_dict w.length nb, prev⟩
    ∧ ceil_div w.sum W = ⌈(w.sum : ℚ) / (W : ℚ)⌉ := by
  refine ⟨?_, solution_dict_false w W w.length nb prev, ceil_div_eq_ceil _ _ hW⟩
  exact solution_dict_true w W w.length nb prev _
    (min_bins_calc_ok w W (by omega)) (List.length_pos.2 hw) hnb

theorem solution_dict_spec_witness :
    solution_dict [2, 3] 3 2 2 true none
      = .ok ⟨[(VKey.y 0, some 1), (VKey.y 1, some 1), (VKey.x 0 0, some 1),
          (VKey.x 0 1, some 0), (VKey.x 1 0, none), (VKey.x 1 1, none)], some 2⟩
    ∧ solution_dict [2, 3] 3 2 2 false none
      = .ok ⟨[(VKey.y 0, none), (VKey.y 1, none), (VKey.x 0 0, none),
          (VKey.x 0 1, none), (VKey.x 1 0, none), (VKey.x 1 1, none)], none⟩ := by
  obtain ⟨h1, h2, -⟩ :=
    solution_dict_spec [2, 3] 3 2 none (by decide) (by decide) (by decide)
  exact ⟨h1.trans (by rfl), h2.trans (by rfl)⟩

/-- C10: `weight_capacity > 0` is an unstated precondition of
`solution_dict` under `simplifications = True`: with non-empty weights
and zero capacity the `min_bins` conversion raises instead of
returning a dictionary (and hence constructing such a `BinPacking`
raises), while any positive capacity yields a dictionary. -/
theorem solution_dict_capacity_precondition (w : List Int) (ni nb : Nat)
    (prev : Option Int) (pen : List ℚ) (nbo : Option Nat) (meth : String)
    (hw : w ≠ []) :
    (∃ e, solution_dict w 0 ni nb true prev = .error e)
    ∧ (∀ W : Int, 0 < W → ∃ r, solution_dict w W ni nb true prev = .ok r)
    ∧ (∃ e, BinPacking_init w 0 pen nbo true meth = .error e) := by
  refine ⟨solution_dict_zero_fails w ni nb prev, ?_, ?_⟩
  · intro W hW
    unfold solution_dict
    rw [if_pos rfl, min_bins_calc_ok w W (by omega)]
    exact ⟨_, rfl⟩
  · obtain ⟨e, he⟩ := solution_dict_zero_fails w w.length (nbo.getD w.length) none
    refine ⟨e, ?_⟩
    unfold BinPacking_init
    rw [if_pos (by simpa [List.length_pos] using hw)]
    exact build_instance_error _ e he

/-- Does a call outcome consist of raising `ValueError`? -/
def raises_value_error {α : Type} (r : Except (PyError × BinPackingState) α) : Bool :=
  match r with
  | .error (.valueError, _) => true
  | _ => false

theorem solution_dict_zero_eq (w : List Int) (ni nb : Nat) (prev : Option Int) :
    solution_dict w 0 ni nb true prev
      = .error (if w.sum = 0 then PyError.valueError else PyError.overflowError) := by
  unfold solution_dict
  rw [if_pos rfl, min_bins_calc_zero]

theorem solution_dict_ok_of_ne_zero (w : List Int) (W : Int) (ni nb : Nat)
    (prev : Option Int) (hW : W ≠ 0) :
    ∃ r, solution_dict w W ni nb true prev = .ok r := by
  unfold solution_dict
  rw [if_pos rfl, min_bins_calc_ok w W hW]
  exact ⟨_, rfl⟩

/-- The state after the attribute assignments `self.weight_capacity`,
`self.n_items`, `self.n_bins`, `self.weights`, `self.simplification`
at the top of `random_instance`. -/
def rand_state (st : BinPackingState) (w : List Int) (n : Nat) (wc : Int)
    (simpl : Bool) : BinPackingState :=
  { st with weight_capacity := wc, n_items := n, n_bins := n,
            weights := w, simplifications := simpl }

theorem random_instance_ge_eq (st : BinPackingState)
    (rng : Int → Int → Nat → Nat → List Int) (n : Nat) (mw MW wc : Int)
    (simpl : Bool) (seed : Nat) (h : mw ≥ MW) :
    random_instance st rng n mw MW wc simpl seed
      = .error (.valueError,
          { st with weight_capacity := wc, n_items := n, n_bins := n }) := by
  unfold random_instance
  rw [if_pos h]

theorem random_instance_lt_eq (st : BinPackingState)
    (rng : Int → Int → Nat → Nat → List Int) (n : Nat) (mw MW wc : Int)
    (simpl : Bool) (seed : Nat) (h : mw < MW) :
    random_instance st rng n mw MW wc simpl seed
      = (match build_instance (rand_state st (rng mw MW n seed) n wc simpl) with
         | .error e => .error (e, rand_state st (rng mw MW n seed) n wc simpl)
         | .ok st2 => .ok st2) := by
  unfold random_instance
  rw [if_neg (by omega)]
  rfl

/-- C8 (amended): `random_instance` raises `ValueError` when
`min_weight >= max_weight`, and then the object is left in the mixed
state in which `weight_capacity`, `n_items` and `n_bins` are already
overwritten while every other attribute keeps its previous value.
With `min_weight < max_weight` a `ValueError` can still occur — exactly
when `simplification` is on, the new `weight_capacity` is `0` and the
sampled weights sum to `0` (the `int(nan)` conversion in `min_bins`). -/
theorem random_instance_spec (st : BinPackingState)
    (rng : Int → Int → Nat → Nat → List Int) (n : Nat) (mw MW wc : Int)
    (simpl : Bool) (seed : Nat) :
    (mw ≥ MW → random_instance st rng n mw MW wc simpl seed
        = .error (.valueError,
            { st with weight_capacity := wc, n_items := n, n_bins := n }))
    ∧ (mw < MW → raises_value_error (random_instance st rng n mw MW wc simpl seed)
        = (simpl && (wc == 0) && ((rng mw MW n seed).sum == 0))) := by
  constructor
  · intro h
    exact random_instance_ge_eq st rng n mw MW wc simpl seed h
  · intro h
    rw [random_instance_lt_eq st rng n mw MW wc simpl seed h]
    cases simpl with
    | false =>
      rw [build_instance_ok (rand_state st (rng mw MW n seed) n wc false)
        ⟨blank_solution_dict n n, st.min_bins⟩ (solution_dict_false _ _ _ _ _)]
      rfl
    | true =>
      by_cases hwc : wc = 0
      · subst hwc
        rw [build_instance_error (rand_state st (rng mw MW n seed) n 0 true)
          (if (rng mw MW n seed).sum = 0 then PyError.valueError
           else PyError.overflowError)
          (solution_dict_zero_eq _ _ _ _)]
        by_cases hs : (rng mw MW n seed).sum = 0
        · rw [if_pos hs]
          simp [raises_value_error, hs]
        · rw [if_neg hs]
          simp [raises_value_error, hs]
      · obtain ⟨r, hr⟩ := solution_dict_ok_of_ne_zero (rng mw MW n seed) wc n n
          st.min_bins hwc
        rw [build_instance_ok (rand_state st (rng mw MW n seed) n wc true) r hr]
        simp [raises_value_error, hwc]

/-- C8 counterexample to the claim's "if and only if":
`random_instance(n_items=3, min_weight=0, max_weight=1,
weight_capacity=0)` raises `ValueError` although
`min_weight < max_weight`.  `np.random.randint(0, 1, n)` draws from
the half-open range `[0, 1) = {0}`, so for every seed the sampled
weights are all zeros — the supplied oracle is the only behaviour
consistent with numpy — and `int(np.ceil(0 / 0))` is `int(nan)`,
which raises `ValueError`. -/
theorem random_instance_claim_counterexample :
    raises_value_error (random_instance (init_state [] 0 [] none true "slack")
        (fun _ _ n _ => List.replicate n 0) 3 0 1 0 true 1) = true
    ∧ ¬((0 : Int) ≥ 1) := by
  constructor
  · rfl
  · decide

theorem random_instance_spec_witness :
    random_instance (init_state [] 0 [] none true "slack")
        (fun _ _ n _ => List.replicate n 1) 3 5 2 10 true 1
      = .error (.valueError,
          { init_state [] 0 [] none true "slack" with
              weight_capacity := 10, n_items := 3, n_bins := 3 })
    ∧ raises_value_error (random_instance (init_state [] 0 [] none true "slack")
        (fun _ _ n _ => List.replicate n 1) 3 1 2 10 true 1) = false := by
  constructor
  · exact (random_instance_spec _ _ 3 5 2 10 true 1).1 (by decide)
  · exact ((random_instance_spec _ _ 3 1 2 10 true 1).2 (by decide)).trans (by rfl)

/-- C9 (amended): a `BinPacking` built with the default empty weight
list has no `solution`, `cplex_model` or `n_vars` attributes; the
attributes exist — with `n_vars` the number of binary variables of the
docplex model — exactly after a constructor call with non-empty
weights or a *successful* `random_instance` call; a `random_instance`
call that raises leaves the three attributes unchanged. -/
theorem binpacking_attributes_spec :
    (∀ (W : Int) (pen : List ℚ) (nbo : Option Nat) (s : Bool) (m : String),
      (BinPacking_init [] W pen nbo s m).toOption.map
        (fun st => (st.solution, st.cplex_model, st.n_vars))
        = some (none, none, none))
    ∧ (∀ (w : List Int) (W : Int) (pen : List ℚ) (nbo : Option Nat) (s : Bool)
        (m : String) (st : BinPackingState), w ≠ [] →
        BinPacking_init w W pen nbo s m = .ok st →
        ∃ d b, st.solution = some d ∧ st.cplex_model = some b
          ∧ st.n_vars = some b.binary_vars.length)
    ∧ (∀ (st : BinPackingState) (rng : Int → Int → Nat → Nat → List Int)
        (n : Nat) (mw MW wc : Int) (simpl : Bool) (seed : Nat)
        (st' : BinPackingState),
        random_instance st rng n mw MW wc simpl seed = .ok st' →
        ∃ d b, st'.solution = some d ∧ st'.cplex_model = some b
          ∧ st'.n_vars = some b.binary_vars.length)
    ∧ (∀ (st : BinPackingState) (rng : Int → Int → Nat → Nat → List Int)
        (n : Nat) (mw MW wc : Int) (simpl : Bool) (seed : Nat)
        (e : PyError) (st' : BinPackingState),
        random_instance st rng n mw MW wc simpl seed = .error (e, st') →
        st'.solution = st.solution ∧ st'.cplex_model = st.cplex_model
          ∧ st'.n_vars = st.n_vars) := by
  refine ⟨?_, ?_, ?_, ?_⟩
  · intro W pen nbo s m
    rfl
  · intro w W pen nbo s m st hne hok
    unfold BinPacking_init at hok
    rw [if_pos (by simpa [List.length_pos] using hne)] at hok
    unfold build_instance at hok
    cases hsd : solution_dict (init_state w W pen nbo s m).weights
        (init_state w W pen nbo s m).weight_capacity
        (init_state w W pen nbo s m).n_items (init_state w W pen nbo s m).n_bins
        (init_state w W pen nbo s m).simplifications
        (init_state w W pen nbo s m).min_bins with
    | error e =>
      rw [hsd] at hok
      exact absurd hok (by simp)
    | ok r =>
      rw [hsd] at hok
      have := Except.ok.inj hok
      subst this
      exact ⟨r.dict, _, rfl, rfl, rfl⟩
  · intro st rng n mw MW wc simpl seed st' hok
    by_cases hge : mw ≥ MW
    · rw [random_instance_ge_eq st rng n mw MW wc simpl seed hge] at hok
      exact absurd hok (by simp)
    · rw [random_instance_lt_eq st rng n mw MW wc simpl seed (by omega)] at hok
      cases hb : build_instance (rand_state st (rng mw MW n seed) n wc simpl) with
      | error e =>
        rw [hb] at hok
        exact absurd hok (by simp)
      | ok st2 =>
        rw [hb] at hok
        have hst2 := Except.ok.inj hok
        subst hst2
        unfold build_instance at hb
        simp only [rand_state] at hb
        cases hsd : solution_dict (rng mw MW n seed) wc n n simpl st.min_bins with
        | error e =>
          rw [hsd] at hb
          exact absurd hb (by simp)
        | ok r =>
          rw [hsd] at hb
          have := Except.ok.inj hb
          subst this
          exact ⟨r.dict, _, rfl, rfl, rfl⟩
  · intro st rng n mw MW wc simpl seed e st' herr
    by_cases hge : mw ≥ MW
    · rw [random_instance_ge_eq st rng n mw MW wc simpl seed hge] at herr
      have h2 : ({ st with weight_capacity := wc, n_items := n, n_bins := n }
          : BinPackingState) = st' :=
        congrArg Prod.snd (Except.error.inj herr)
      rw [← h2]
      exact ⟨rfl, rfl, rfl⟩
    · rw [random_instance_lt_eq st rng n mw MW wc simpl seed (by omega)] at herr
      cases hb : build_instance (rand_state st (rng mw MW n seed) n wc simpl) with
      | error e2 =>
        rw [hb] at herr
        have h2 : rand_state st (rng mw MW n seed) n wc simpl = st' :=
          congrArg Prod.snd (Except.error.inj herr)
        rw [← h2]
        exact ⟨rfl, rfl, rfl⟩
      | ok st2 =>
        rw [hb] at herr
        exact absurd herr (by simp)

/-- C9 counterexample to the claim's "exactly when ... random_instance
has been called on the instance": on a fresh empty instance a
`random_instance` call that raises `ValueError`
(`min_weight = 5 >= max_weight = 2`) has *been called*, yet
`solution`, `cplex_model` and `n_vars` still do not exist. -/
theorem binpacking_attributes_claim_counterexample :
    (BinPacking_init [] 0 [] none true "slack").toOption.bind
      (fun st =>
        match random_instance st (fun _ _ n _ => List.replicate n 1)
            3 5 2 10 true 1 with
        | .error (_, s) => some (s.solution, s.cplex_model, s.n_vars)
        | .ok _ => none)
      = some (none, none, none) := rfl

theorem binpacking_attributes_spec_witness :
    (BinPacking_init [] 7 [] none true "slack").toOption.map
      (fun st => (st.solution, st.cplex_model, st.n_vars))
      = some (none, none, none)
    ∧ (BinPacking_init [2, 3] 3 [] none true "slack").toOption.map
        (fun st => (st.solution.isSome, st.cplex_model.isSome, st.n_vars.isSome))
      = some (true, true, true) := by
  obtain ⟨st, hst⟩ : ∃ st, BinPacking_init [2, 3] 3 [] none true "slack"
      = .ok st := ⟨_, rfl⟩
  obtain ⟨d, b, h1, h2, h3⟩ := binpacking_attributes_spec.2.1 [2, 3] 3 [] none
    true "slack" st (by decide) hst
  refine ⟨binpacking_attributes_spec.1 7 [] none true "slack", ?_⟩
  rw [hst]
  show some (st.solution.isSome, st.cplex_model.isSome, st.n_vars.isSome)
    = some (true, true, true)
  rw [h1, h2, h3]
  rfl

/-- C7: `find_penalty_terms` builds the tuning instances with seeds
`0 .. n_mdls - 1`, solves each classically, minimizes the penalty
objective with scipy's Nelder-Mead starting from `penalty0`, stores the
minimizer in `self.penalty` and returns the pair of the minimizer and
the objective's callback evaluation at the minimizer. -/
theorem find_penalty_terms_spec (st : BinPackingState) (O : FPTOracles)
    (penalty0 : List ℚ) (n_items n_mdls : Nat) (mdls : List BinPackingState)
    (hw : st.weights ≠ [])
    (hbuild : build_models st O n_items n_mdls (adjusted_min_weight st.weights)
        (st.weights.max?.getD 0) = .ok mdls) :
    find_penalty_terms st O penalty0 n_items n_mdls
      = .ok ({ st with penalty := (O.minimize
            (fun p => O.objective p mdls (mdls.map O.classical_solution))
            penalty0 "Nelder-Mead") },
          O.minimize (fun p => O.objective p mdls (mdls.map O.classical_solution))
            penalty0 "Nelder-Mead",
          O.callback (O.minimize (fun p => O.objective p mdls
              (mdls.map O.classical_solution)) penalty0 "Nelder-Mead") mdls
            (mdls.map O.classical_solution))
    ∧ build_models st O n_items n_mdls (adjusted_min_weight st.weights)
        (st.weights.max?.getD 0)
      = (List.range n_mdls).mapM (fun seed =>
          random_instance (init_state [] 0 [] none true st.method) O.randint
            n_items (adjusted_min_weight st.weights) (st.weights.max?.getD 0)
            st.weight_capacity true seed) := by
  refine ⟨?_, rfl⟩
  simp only [find_penalty_terms]
  rw [if_neg hw, hbuild]

theorem find_penalty_terms_spec_witness :
    find_penalty_terms (init_state [1, 2] 10 [] none true "slack")
        ⟨fun _ _ n _ => List.replicate n 1, fun _ => "", fun _ _ _ => 0,
          fun _ _ _ => 0, fun _ x0 _ => x0⟩ [1] 2 1
      = .ok ({ init_state [1, 2] 10 [] none true "slack" with penalty := [1] },
          [1], 0) := by
  obtain ⟨mdls, hbuild⟩ : ∃ m,
      build_models (init_state [1, 2] 10 [] none true "slack")
        ⟨fun _ _ n _ => List.replicate n 1, fun _ => "", fun _ _ _ => 0,
          fun _ _ _ => 0, fun _ x0 _ => x0⟩ 2 1
        (adjusted_min_weight (init_state [1, 2] 10 [] none true "slack").weights)
        ((init_state [1, 2] 10 [] none true "slack").weights.max?.getD 0)
      = .ok m := ⟨_, rfl⟩
  have h := (find_penalty_terms_spec (init_state [1, 2] 10 [] none true "slack")
    ⟨fun _ _ n _ => List.replicate n 1, fun _ => "", fun _ _ _ => 0,
      fun _ _ _ => 0, fun _ x0 _ => x0⟩ [1] 2 1 mdls (by decide) hbuild).1
  exact h.trans (by rfl)

theorem solution_dict_capacity_precondition_witness :
    (solution_dict [1] 0 1 1 true none).isOk = false
    ∧ (solution_dict [1] 7 1 1 true none).isOk = true
    ∧ (BinPacking_init [1] 0 [] none true "slack").isOk = false := by
  obtain ⟨⟨e1, h1⟩, h2, ⟨e3, h3⟩⟩ :=
    solution_dict_capacity_precondition [1] 1 1 none [] none "slack" (by decide)
  obtain ⟨r, hr⟩ := h2 7 (by decide)
  exact ⟨by rw [h1]; rfl, by rw [hr]; rfl, by rw [h3]; rfl⟩

end OpenQAOA

